import Mathlib

/-!
# Verification of the AutoProcessUI multi-worker batch engine

Shallow embedding, in Lean 4, of the orchestration core of the
AutoProcessUI repository (`app.py`, `batchProcess.py`,
`workflow_manager.py`, `comfyui_websocket.py`), together with theorems
settling the frozen claims about it.

Conventions used throughout:
* Python dicts of JSON data are modelled either as association lists
  (`List (String × _)`) when only their value is relevant, or — where
  aliasing and in-place mutation matter (claim C4) — as an explicit
  heap of mutable objects addressed by natural numbers.
* Bytes are natural numbers `< 256`; byte strings are `List Nat`.
* Remote HTTP services (the ComfyUI workers) are oracles passed in as
  functions (`fetch`, `pilOpen`, ...).
* Fallible Python code (uncaught `KeyError` / `TypeError` /
  `ZeroDivisionError`) is modelled with `Option`.
-/

namespace AutoProcessUI

/-! ## Worker pool round-robin assignment

From `app.py` (`process_batch_with_live_updates`):
`gpu_id = i % self.orchestrator.num_gpus` for the `i`-th entry of
`image_info_list`, and identically in `batchProcess.py`
(`process_batch_async`): `gpu_id = i % self.num_gpus`.
-/

/-- Worker index assigned to the item at submission index `i` with a pool
of `numGpus` workers (`i % num_gpus` in both batch dispatch loops). -/
def assignWorker (i numGpus : Nat) : Nat := i % numGpus

/-- The per-item worker assignments of one dispatched batch of `n` items:
the dispatch loops enumerate the submitted list in order and assign
`i % numGpus` to the item at position `i`. -/
def batchWorkerAssignments (n numGpus : Nat) : List Nat :=
  (List.range n).map (fun i => assignWorker i numGpus)

/-! ## Binary websocket frame parsing

From `comfyui_websocket.py` (`parse_comfyui_binary_message`) and the
binary branch of `on_message` in `app.py`
(`monitor_progress_websocket`). -/

/-- Big-endian unsigned 32-bit read of the first four bytes
(`struct.unpack` with a big-endian unsigned-int format on `data[:4]`). -/
def beU32 : List Nat → Nat
  | b0 :: b1 :: b2 :: b3 :: _ => ((b0 * 256 + b1) * 256 + b2) * 256 + b3
  | _ => 0

/-- `parse_comfyui_binary_message(data)`: `(None, None)` — modelled as
`none` — when fewer than 8 bytes; otherwise the pair of the big-endian
type code from bytes 0–4 and the payload `data[8:]` (bytes 4–8 are the
auxiliary info, which the caller ignores). -/
def parseComfyuiBinaryMessage (data : List Nat) : Option (Nat × List Nat) :=
  if data.length < 8 then none
  else some (beU32 data, data.drop 8)

/-- An in-memory decoded image (the result of a successful
`PIL.Image.open` or of the raw-buffer fallback). Its contents are
irrelevant to the claims; only existence matters. -/
structure PILImage where
  bytes : List Nat
deriving DecidableEq, Repr

/-- `handle_preview_image(image_data)`: try the external decoder first
(`PIL.Image.open`, given as the oracle `pilOpen`); on failure fall back
to interpreting the bytes as raw 512×512 RGB / RGBA pixel data; give up
(`None`) otherwise. -/
def handlePreviewImage (pilOpen : List Nat → Option PILImage)
    (imageData : List Nat) : Option PILImage :=
  match pilOpen imageData with
  | some img => some img
  | none =>
    if imageData.length = 512 * 512 * 3 then some ⟨imageData⟩
    else if imageData.length = 512 * 512 * 4 then some ⟨imageData⟩
    else none

/-- The slice of per-item mutable state touched by the binary branch of
the websocket monitor: `self.preview_images[image_id]` and
`self.processing_status[image_id]['has_preview']`. -/
structure MonitorState where
  previewImage : Option String
  hasPreview : Bool
deriving DecidableEq, Repr

/-- Temp-file path chosen for a saved preview:
`self.temp_input_dir / f"preview_{image_id}_{int(time.time()*1000)}.png"`. -/
def previewPath (tempInputDir imageId : String) (timeMs : Nat) : String :=
  tempInputDir ++ "/preview_" ++ imageId ++ "_" ++ Nat.repr timeMs ++ ".png"

/-- The binary branch of `on_message` in `monitor_progress_websocket`:
parse the frame; on type code 1 with a truthy (non-empty) payload,
decode it via `handle_preview_image`; if decoding succeeds, save the
preview under a timestamped temp path, point
`self.preview_images[image_id]` at it and set `has_preview`. Every
other case leaves the state untouched. -/
def monitorBinaryMessage (pilOpen : List Nat → Option PILImage)
    (tempInputDir imageId : String) (timeMs : Nat)
    (message : List Nat) (st : MonitorState) : MonitorState :=
  match parseComfyuiBinaryMessage message with
  | none => st
  | some (msgType, payload) =>
    if msgType = 1 ∧ payload ≠ [] then
      match handlePreviewImage pilOpen payload with
      | some _ =>
        { previewImage := some (previewPath tempInputDir imageId timeMs)
          hasPreview := true }
      | none => st
    else st

end AutoProcessUI

namespace AutoProcessUI

/-! ## Claim C1 -/

/-- C1: for every batch of `n` items dispatched with a worker pool of
size `p`, the item at submission index `i` is assigned the worker whose
index equals `i % p`. -/
theorem claim1_round_robin_assignment (n p i : Nat) (_hp : 0 < p) (hi : i < n) :
    (batchWorkerAssignments n p)[i]? = some (i % p) := by
  unfold batchWorkerAssignments assignWorker
  rw [List.getElem?_map, List.getElem?_range hi, Option.map_some']

/-- Witness for C1 at a concrete batch: 5 items over a pool of 2. -/
theorem claim1_round_robin_assignment_witness :
    (batchWorkerAssignments 5 2)[3]? = some (3 % 2) :=
  claim1_round_robin_assignment 5 2 3 (by decide) (by decide)

/-! ## Claim C6 -/

/-- C6: binary preview-frame parsing. For the frame
`[0,0,0,1, 0,0,0,0] ++ png` with decodable PNG bytes, the parser yields
type code 1 and the PNG payload, the payload decodes to an image, and
the monitor updates the item's preview pointer (and `has_preview`);
every frame shorter than 8 bytes parses to `(None, None)` and changes
no state; every frame whose first 4 bytes decode big-endian to 2 is
ignored by the monitor. -/
theorem claim6_binary_preview_frames
    (pilOpen : List Nat → Option PILImage) (tempInputDir imageId : String)
    (timeMs : Nat) (png : List Nat) (img : PILImage) (st : MonitorState)
    (hdecode : pilOpen png = some img) (hne : png ≠ []) :
    parseComfyuiBinaryMessage ([0, 0, 0, 1, 0, 0, 0, 0] ++ png) = some (1, png)
    ∧ handlePreviewImage pilOpen png = some img
    ∧ monitorBinaryMessage pilOpen tempInputDir imageId timeMs
        ([0, 0, 0, 1, 0, 0, 0, 0] ++ png) st
      = { previewImage := some (previewPath tempInputDir imageId timeMs)
          hasPreview := true }
    ∧ (∀ (msg : List Nat) (st' : MonitorState), msg.length < 8 →
        parseComfyuiBinaryMessage msg = none
        ∧ monitorBinaryMessage pilOpen tempInputDir imageId timeMs msg st' = st')
    ∧ (∀ (msg : List Nat) (st' : MonitorState), 8 ≤ msg.length → beU32 msg = 2 →
        monitorBinaryMessage pilOpen tempInputDir imageId timeMs msg st' = st') := by
  have hparse : parseComfyuiBinaryMessage ([0, 0, 0, 1, 0, 0, 0, 0] ++ png)
      = some (1, png) := by
    simp [parseComfyuiBinaryMessage, beU32]
  have hhandle : handlePreviewImage pilOpen png = some img := by
    simp [handlePreviewImage, hdecode]
  refine ⟨hparse, hhandle, ?_, ?_, ?_⟩
  · rw [monitorBinaryMessage, hparse]
    simp [hne, hhandle]
  · intro msg st' hlen
    have hp : parseComfyuiBinaryMessage msg = none := by
      simp [parseComfyuiBinaryMessage, hlen]
    exact ⟨hp, by rw [monitorBinaryMessage, hp]⟩
  · intro msg st' hlen htype
    have hp : parseComfyuiBinaryMessage msg = some (2, msg.drop 8) := by
      rw [parseComfyuiBinaryMessage, if_neg (by omega), htype]
    rw [monitorBinaryMessage, hp]
    simp

/-- Witness for C6: a concrete decoder oracle and a concrete one-byte
payload exercise all three conjuncts of the theorem. -/
theorem claim6_binary_preview_frames_witness :
    (fun (b : List Nat) => if b = [137] then some (⟨[137]⟩ : PILImage) else none) [137]
        = some (⟨[137]⟩ : PILImage)
    ∧ ([137] : List Nat) ≠ []
    ∧ monitorBinaryMessage
        (fun (b : List Nat) => if b = [137] then some (⟨[137]⟩ : PILImage) else none)
        "tmp" "item0" 42 [0, 0, 0, 1, 0, 0, 0, 0, 137]
        { previewImage := none, hasPreview := false }
      = { previewImage := some (previewPath "tmp" "item0" 42), hasPreview := true }
    ∧ monitorBinaryMessage
        (fun (b : List Nat) => if b = [137] then some (⟨[137]⟩ : PILImage) else none)
        "tmp" "item0" 42 [9, 9, 9]
        { previewImage := none, hasPreview := false }
      = { previewImage := none, hasPreview := false }
    ∧ monitorBinaryMessage
        (fun (b : List Nat) => if b = [137] then some (⟨[137]⟩ : PILImage) else none)
        "tmp" "item0" 42 [0, 0, 0, 2, 0, 0, 0, 0, 1, 2]
        { previewImage := none, hasPreview := false }
      = { previewImage := none, hasPreview := false } := by
  have h := claim6_binary_preview_frames
    (fun (b : List Nat) => if b = [137] then some (⟨[137]⟩ : PILImage) else none)
    "tmp" "item0" 42 [137] ⟨[137]⟩
    { previewImage := none, hasPreview := false }
    (by decide) (by decide)
  refine ⟨by decide, by decide, h.2.2.1, ?_, ?_⟩
  · exact (h.2.2.2.1 [9, 9, 9] { previewImage := none, hasPreview := false }
      (by decide)).2
  · exact h.2.2.2.2 [0, 0, 0, 2, 0, 0, 0, 0, 1, 2]
      { previewImage := none, hasPreview := false } (by decide) (by decide)

/-! ## Decimal rendering of counters

`get_unique_filename` in `app.py` renders the retry counter with a
Python f-string, i.e. with the decimal representation of the integer —
`Nat.repr` on our side. Injectivity of that rendering is what makes the
candidate names `stem_1`, `stem_2`, ... pairwise distinct. -/

/-- Numeric value of a decimal digit character. -/
def decDigitVal (c : Char) : Nat := c.toNat - 48

/-- Most-significant-first evaluation of a decimal digit string. -/
def decValue (l : List Char) : Nat :=
  l.foldl (fun a c => a * 10 + decDigitVal c) 0

theorem decDigitVal_digitChar (m : Nat) (hm : m < 10) :
    decDigitVal (Nat.digitChar m) = m := by
  interval_cases m <;> decide

theorem toDigitsCore_append (fuel : Nat) :
    ∀ (n : Nat) (ds : List Char),
      Nat.toDigitsCore 10 fuel n ds = Nat.toDigitsCore 10 fuel n [] ++ ds := by
  induction fuel with
  | zero => intro n ds; simp [Nat.toDigitsCore]
  | succ fuel ih =>
    intro n ds
    simp only [Nat.toDigitsCore]
    by_cases h : n / 10 = 0
    · simp [h]
    · simp only [h, if_false]
      rw [ih (n / 10) (Nat.digitChar (n % 10) :: ds),
        ih (n / 10) [Nat.digitChar (n % 10)], List.append_assoc]
      rfl

theorem foldl_toDigitsCore (fuel : Nat) :
    ∀ (n : Nat), n < fuel → ∀ (a : Nat),
      List.foldl (fun acc c => acc * 10 + decDigitVal c) a
          (Nat.toDigitsCore 10 fuel n [])
        = a * 10 ^ (Nat.toDigitsCore 10 fuel n []).length + n := by
  induction fuel with
  | zero => intro n hn; omega
  | succ fuel ih =>
    intro n hn a
    simp only [Nat.toDigitsCore]
    by_cases h : n / 10 = 0
    · have hn10 : n < 10 := by omega
      have hmod : n % 10 = n := Nat.mod_eq_of_lt hn10
      simp [h, hmod, decDigitVal_digitChar n hn10]
    · have hrec : n / 10 < fuel := by
        have h1 : n / 10 < n := Nat.div_lt_self (by omega) (by omega)
        omega
      simp only [h, if_false,
        toDigitsCore_append fuel (n / 10) [Nat.digitChar (n % 10)]]
      rw [List.foldl_append, ih (n / 10) hrec a]
      simp only [List.foldl_cons, List.foldl_nil, List.length_append,
        List.length_cons, List.length_nil]
      rw [decDigitVal_digitChar (n % 10) (Nat.mod_lt _ (by omega))]
      ring_nf
      omega

theorem decValue_toDigits (n : Nat) : decValue (Nat.toDigits 10 n) = n := by
  unfold decValue Nat.toDigits
  rw [foldl_toDigitsCore (n + 1) n (Nat.lt_succ_self n) 0]
  simp

/-- Python renders the retry counter in decimal; distinct counters give
distinct strings. -/
theorem natRepr_injective : Function.Injective Nat.repr := by
  intro m n h
  have hdata : Nat.toDigits 10 m = Nat.toDigits 10 n := by
    have := congrArg String.data h
    simpa [Nat.repr, List.asString] using this
  have := congrArg decValue hdata
  rwa [decValue_toDigits, decValue_toDigits] at this

/-! ## Collision-safe local naming

From `get_unique_filename` in `app.py`
(`process_single_image_with_socketio_updates`): return the base path if
no file exists there; otherwise try `{stem}_{counter}{suffix}` for
`counter = 1, 2, ...` until an unused name is found. -/

/-- A `pathlib.Path` as used by `get_unique_filename`: parent directory,
stem and suffix (extension). -/
structure FsPath where
  parent : String
  stem : String
  suffix : String
deriving DecidableEq, Repr

/-- The on-disk name the path denotes; file existence is decided on
these rendered names. -/
def FsPath.render (p : FsPath) : String :=
  p.parent ++ "/" ++ p.stem ++ p.suffix

/-- The `counter`-th retry name:
`base_path.parent / f"{base_path.stem}_{counter}{base_path.suffix}"`. -/
def candidatePath (base : FsPath) (counter : Nat) : FsPath :=
  { parent := base.parent
    stem := base.stem ++ "_" ++ Nat.repr counter
    suffix := base.suffix }

/-- The `while True` retry loop of `get_unique_filename`. The loop in
the source has no bound; `uniqueNameLoop_finds` below shows that fuel
`fs.length + 1` always suffices, so the fuel-0 fallback is dead code. -/
def uniqueNameLoop (fs : List String) (base : FsPath) : Nat → Nat → FsPath
  | 0, counter => candidatePath base counter
  | fuel + 1, counter =>
    if (candidatePath base counter).render ∈ fs then
      uniqueNameLoop fs base fuel (counter + 1)
    else candidatePath base counter

/-- `get_unique_filename(base_path)` against the set `fs` of names of
files that exist on disk. -/
def getUniqueFilename (fs : List String) (base : FsPath) : FsPath :=
  if base.render ∈ fs then uniqueNameLoop fs base (fs.length + 1) 1
  else base

theorem candidatePath_render_injective (base : FsPath) :
    Function.Injective (fun k => (candidatePath base k).render) := by
  intro k1 k2 h
  simp only [candidatePath, FsPath.render] at h
  have hdata := congrArg String.data h
  simp only [String.data_append] at hdata
  have h1 := List.append_cancel_right hdata
  have h2 := List.append_cancel_left h1
  have h3 := List.append_cancel_left h2
  exact natRepr_injective (String.ext h3)

theorem uniqueNameLoop_finds (fs : List String) (base : FsPath) :
    ∀ (fuel c : Nat),
      (∃ j, j < fuel ∧ (candidatePath base (c + j)).render ∉ fs) →
      ∃ k, uniqueNameLoop fs base fuel c = candidatePath base k ∧ c ≤ k
        ∧ (candidatePath base k).render ∉ fs
        ∧ ∀ j, c ≤ j → j < k → (candidatePath base j).render ∈ fs := by
  intro fuel
  induction fuel with
  | zero => intro c ⟨j, hj, _⟩; omega
  | succ fuel ih =>
    intro c ⟨j, hj, hfree⟩
    by_cases hc : (candidatePath base c).render ∈ fs
    · have hj0 : j ≠ 0 := by rintro rfl; simp at hfree; exact hfree hc
      have hshift : c + 1 + (j - 1) = c + j := by omega
      have hfree1 : (candidatePath base (c + 1 + (j - 1))).render ∉ fs := by
        rwa [hshift]
      obtain ⟨k, hk, hck, hkfree, hkall⟩ := ih (c + 1) ⟨j - 1, by omega, hfree1⟩
      refine ⟨k, ?_, by omega, hkfree, ?_⟩
      · rw [uniqueNameLoop, if_pos hc]; exact hk
      · intro i hci hik
        rcases Nat.eq_or_lt_of_le hci with rfl | hlt
        · exact hc
        · exact hkall i hlt hik
    · refine ⟨c, ?_, le_refl c, hc, fun j h1 h2 => absurd (lt_of_le_of_lt h1 h2)
        (lt_irrefl c)⟩
      rw [uniqueNameLoop, if_neg hc]

theorem exists_free_candidate (fs : List String) (base : FsPath) :
    ∃ j, j < fs.length + 1 ∧ (candidatePath base (1 + j)).render ∉ fs := by
  by_contra hall
  push_neg at hall
  set l : List String :=
    (List.range (fs.length + 1)).map (fun j => (candidatePath base (1 + j)).render)
    with hl
  have hnodup : l.Nodup := by
    refine List.Nodup.map ?_ (List.nodup_range _)
    intro a b hab
    have := candidatePath_render_injective base hab
    omega
  have hsub : l.toFinset ⊆ fs.toFinset := by
    intro x hx
    rw [List.mem_toFinset] at hx
    rw [List.mem_toFinset]
    obtain ⟨j, hj, rfl⟩ := List.mem_map.mp hx
    exact hall j (List.mem_range.mp hj)
  have hcard1 : l.toFinset.card = fs.length + 1 := by
    rw [List.toFinset_card_of_nodup hnodup, hl, List.length_map, List.length_range]
  have hcard2 : fs.toFinset.card ≤ fs.length := fs.toFinset_card_le
  have := Finset.card_le_card hsub
  omega

/-- The specification of `get_unique_filename`: keep the base name when
it is free; otherwise return the first numbered candidate that is free. -/
theorem getUniqueFilename_spec (fs : List String) (base : FsPath) :
    (base.render ∉ fs → getUniqueFilename fs base = base)
    ∧ (base.render ∈ fs →
        ∃ k, 1 ≤ k ∧ getUniqueFilename fs base = candidatePath base k
          ∧ (candidatePath base k).render ∉ fs
          ∧ ∀ j, 1 ≤ j → j < k → (candidatePath base j).render ∈ fs)
    ∧ (getUniqueFilename fs base).render ∉ fs := by
  refine ⟨fun h => by rw [getUniqueFilename, if_neg h], fun h => ?_, ?_⟩
  · obtain ⟨j, hj, hfree⟩ := exists_free_candidate fs base
    obtain ⟨k, hk, h1k, hkfree, hkall⟩ :=
      uniqueNameLoop_finds fs base (fs.length + 1) 1 ⟨j, hj, hfree⟩
    exact ⟨k, h1k, by rw [getUniqueFilename, if_pos h]; exact hk, hkfree, hkall⟩
  · by_cases h : base.render ∈ fs
    · obtain ⟨j, hj, hfree⟩ := exists_free_candidate fs base
      obtain ⟨k, hk, _, hkfree, _⟩ :=
        uniqueNameLoop_finds fs base (fs.length + 1) 1 ⟨j, hj, hfree⟩
      rw [getUniqueFilename, if_pos h, hk]
      exact hkfree
    · rw [getUniqueFilename, if_neg h]
      exact h

/-! ## Claim C7 -/

/-- C7: collision-safe local naming. `get_unique_filename` returns the
base path when no file exists there, and otherwise the first
`stem_k.suffix` (`k = 1, 2, ...`) that does not exist; its result never
names an existing file; and writing two outputs with the same derived
base name yields two distinct files, the second carrying a numeric
suffix, with nothing overwritten. -/
theorem claim7_collision_safe_naming (fs : List String) (base : FsPath) :
    (base.render ∉ fs → getUniqueFilename fs base = base)
    ∧ (base.render ∈ fs →
        ∃ k, 1 ≤ k ∧ getUniqueFilename fs base = candidatePath base k
          ∧ (candidatePath base k).render ∉ fs
          ∧ ∀ j, 1 ≤ j → j < k → (candidatePath base j).render ∈ fs)
    ∧ (getUniqueFilename fs base).render ∉ fs
    ∧ ((getUniqueFilename (fs ++ [(getUniqueFilename fs base).render]) base).render
         ≠ (getUniqueFilename fs base).render
       ∧ (getUniqueFilename (fs ++ [(getUniqueFilename fs base).render]) base).render
           ∉ fs ++ [(getUniqueFilename fs base).render]
       ∧ ∃ k, 1 ≤ k ∧
           getUniqueFilename (fs ++ [(getUniqueFilename fs base).render]) base
             = candidatePath base k) := by
  obtain ⟨hbase, hfull, hfree⟩ := getUniqueFilename_spec fs base
  refine ⟨hbase, hfull, hfree, ?_⟩
  set p1 := getUniqueFilename fs base with hp1
  set fs1 := fs ++ [p1.render] with hfs1
  obtain ⟨_, hfull1, hfree1⟩ := getUniqueFilename_spec fs1 base
  have hmem1 : base.render ∈ fs1 := by
    by_cases h : base.render ∈ fs
    · exact List.mem_append_left _ h
    · rw [hfs1, hbase h]
      exact List.mem_append_right _ (List.mem_singleton.mpr rfl)
  have hp1mem : p1.render ∈ fs1 :=
    List.mem_append_right _ (List.mem_singleton.mpr rfl)
  obtain ⟨k, hk1, hk, _, _⟩ := hfull1 hmem1
  refine ⟨?_, hfree1, ⟨k, hk1, hk⟩⟩
  intro heq
  rw [heq] at hfree1
  exact hfree1 hp1mem

/-- Witness for C7 on a concrete filesystem: `out/img_.png` and
`out/img__1.png` already exist, so the base name is taken and the first
free candidate is `img__2`; the second write then picks a different,
fresh name. -/
theorem claim7_collision_safe_naming_witness :
    (let fs := ["out/img_.png", "out/img__1.png"]
     let base : FsPath := ⟨"out", "img_", ".png"⟩
     getUniqueFilename fs base = candidatePath base 2
       ∧ (∃ k, 1 ≤ k ∧ getUniqueFilename fs base = candidatePath base k
           ∧ (candidatePath base k).render ∉ fs)
       ∧ (getUniqueFilename fs base).render ∉ fs
       ∧ (getUniqueFilename (fs ++ [(getUniqueFilename fs base).render]) base).render
           ≠ (getUniqueFilename fs base).render) := by
  have h := claim7_collision_safe_naming ["out/img_.png", "out/img__1.png"]
    ⟨"out", "img_", ".png"⟩
  obtain ⟨k, hk1, hk, hkfree, _⟩ := h.2.1 (by decide)
  exact ⟨by decide, ⟨k, hk1, hk, hkfree⟩, h.2.2.1, h.2.2.2.1⟩

/-! ## Job polling state machine

From the poll loop of `process_single_image_with_socketio_updates` in
`app.py` (history interpretation, output download, error handling,
progress computation) and `wait_for_completion_async` in
`batchProcess.py`. -/

/-- Ghost tag recording which designated output role an artifact was
downloaded from: node `"20"` (primary/unrefined) or node `"52"`
(refined). -/
inductive OutputRole where
  | unrefined
  | refined
deriving DecidableEq, Repr

/-- One entry of a node's `images` list in the worker's history
(`{'filename': ..., 'subfolder': ...}`; a missing subfolder is the
empty string, as produced by `img_info.get('subfolder', '')`). -/
structure ImgInfo where
  filename : String
  subfolder : String
deriving DecidableEq, Repr

/-- One node's record in the history's `outputs` mapping; `images` is
`none` when the `'images'` key is absent. -/
structure NodeOutput where
  images : Option (List ImgInfo)
deriving DecidableEq, Repr

/-- The `execution` block of a history entry; `current` defaults to 0
and `total` to 1 when the keys are absent
(`execution.get('current', 0)`, `execution.get('total', 1)`). -/
structure ExecutionInfo where
  current : Option Nat
  total : Option Nat
deriving DecidableEq, Repr

/-- The per-prompt history record polled from
`GET /history/{prompt_id}`: `status.completed` (default `False`),
`status.status_str`, `status.messages` (default `[]`), the `outputs`
mapping and the `execution` block (`none` models an absent or empty —
hence falsy — block). -/
structure PromptHistory where
  completed : Bool
  statusStr : Option String
  messages : List String
  outputs : List (String × NodeOutput)
  execution : Option ExecutionInfo
deriving DecidableEq, Repr

/-- The slice of `self.processing_status[image_id]` the poll loop
writes: the status string, the progress value, and the optional error
detail. -/
structure ItemStatus where
  status : String
  progress : Int
  error : Option String
deriving DecidableEq, Repr

/-- Dictionary lookup in the history's `outputs` mapping. -/
def lookupNode (outputs : List (String × NodeOutput)) (k : String) :
    Option NodeOutput :=
  (outputs.find? (fun p => p.1 = k)).map (fun p => p.2)

/-- Retrieval URL for one output artifact: the `/view` query built with
or without the `subfolder` parameter depending on whether it is empty. -/
def viewUrl (serverUrl : String) (img : ImgInfo) : String :=
  if img.subfolder ≠ "" then
    serverUrl ++ "/view?filename=" ++ img.filename ++ "&subfolder="
      ++ img.subfolder ++ "&type=output"
  else
    serverUrl ++ "/view?filename=" ++ img.filename ++ "&type=output"

/-- The per-node download loop of the completed branch: for each image
record, if this node's outputs are to be saved (`save_unrefined` gates
node `"20"`; node `"52"` is always saved), fetch the artifact; on a
200 response pick a collision-free local name, write the file (the
name joins the filesystem `fs`), and append the path to the output
list. `role` is ghost data recording the originating node. -/
def downloadNodeImages (role : OutputRole) (save : Bool)
    (fetch : String → Option String) (serverUrl : String) (baseFile : FsPath) :
    List ImgInfo → List (OutputRole × String) × List String →
    List (OutputRole × String) × List String
  | [], acc => acc
  | img :: rest, (files, fs) =>
    if save then
      match fetch (viewUrl serverUrl img) with
      | some _ =>
        let outputPath := getUniqueFilename fs baseFile
        downloadNodeImages role save fetch serverUrl baseFile rest
          (files ++ [(role, outputPath.render)], fs ++ [outputPath.render])
      | none => downloadNodeImages role save fetch serverUrl baseFile rest (files, fs)
    else downloadNodeImages role save fetch serverUrl baseFile rest (files, fs)

/-- One `if node_id in outputs and 'images' in outputs[node_id]` block of
the completed branch, folded over that node's image list. -/
def collectNode (role : OutputRole) (save : Bool)
    (fetch : String → Option String) (serverUrl : String) (baseFile : FsPath)
    (nodeEntry : Option NodeOutput)
    (acc : List (OutputRole × String) × List String) :
    List (OutputRole × String) × List String :=
  match nodeEntry with
  | some n =>
    match n.images with
    | some imgs => downloadNodeImages role save fetch serverUrl baseFile imgs acc
    | none => acc
  | none => acc

/-- The output-collection phase of the completed branch
(`app.py` — "First output (node 20)" gated by `save_unrefined`, then
"Second output (node 52 - refined)" unconditionally). Local names
derive from the input's base name: `{base_name}_.png` for node 20 and
`{base_name}_refined.png` for node 52, made collision-safe by
`get_unique_filename`. -/
def collectOutputs (saveUnrefined : Bool) (fetch : String → Option String)
    (serverUrl outputDir baseName : String)
    (outputs : List (String × NodeOutput)) (fs : List String) :
    List (OutputRole × String) × List String :=
  let acc1 := collectNode .unrefined saveUnrefined fetch serverUrl
    ⟨outputDir, baseName ++ "_", ".png"⟩ (lookupNode outputs "20") ([], fs)
  collectNode .refined true fetch serverUrl
    ⟨outputDir, baseName ++ "_refined", ".png"⟩ (lookupNode outputs "52") acc1

/-- Outcome of one iteration of the poll loop once the prompt is found
in the history. -/
inductive PollOutcome where
  | completedJob (st : ItemStatus) (outputFiles : List String) (fs : List String)
  | failedJob (st : ItemStatus)
  | keepPolling (st : ItemStatus)
deriving DecidableEq, Repr

/-- One iteration of the history poll in
`process_single_image_with_socketio_updates`, for a history entry that
contains the prompt:
* `status.completed` → progress 100, download/collect outputs, status
  `completed`, return the result record;
* `status.status_str == 'error'` → status `error` (the error detail
  field of the status record is not written), return `None`;
* otherwise → if a (non-empty) `execution` block is present, progress
  becomes `25 + int((current / total) * 70)`; else nothing changes.
The Python float expression is modelled by exact rational arithmetic
with `Int.floor` (`int` truncation on these non-negative values);
`total = 0` would raise `ZeroDivisionError` in the source, so theorems
only evaluate this branch at `0 < total`. -/
def pollStep (saveUnrefined : Bool) (fetch : String → Option String)
    (serverUrl outputDir baseName : String) (fs : List String)
    (ph : PromptHistory) (st : ItemStatus) : PollOutcome :=
  if ph.completed then
    let st1 := { st with progress := 100 }
    let res := collectOutputs saveUnrefined fetch serverUrl outputDir baseName
      ph.outputs fs
    .completedJob { st1 with status := "completed" }
      (res.1.map (fun rp => rp.2)) res.2
  else if ph.statusStr = some "error" then
    .failedJob { st with status := "error" }
  else
    match ph.execution with
    | none => .keepPolling st
    | some e =>
      let current := e.current.getD 0
      let total := e.total.getD 1
      .keepPolling
        { st with progress :=
            25 + Int.floor ((current : ℚ) / (total : ℚ) * 70) }

/-- Result of `wait_for_completion_async` in `batchProcess.py` once the
prompt is in the history: a `completed` record carrying the outputs, or
an `error` record carrying the worker's `status.messages` as the error
detail; `none` means the loop keeps polling. -/
structure WaitResult where
  status : String
  outputs : List (String × NodeOutput)
  error : Option (List String)
deriving DecidableEq, Repr

/-- One iteration of `wait_for_completion_async` for a history entry
containing the prompt. -/
def waitForCompletionStep (ph : PromptHistory) : Option WaitResult :=
  if ph.completed then some ⟨"completed", ph.outputs, none⟩
  else if ph.statusStr = some "error" then some ⟨"error", [], some ph.messages⟩
  else none

theorem downloadNodeImages_skip (role : OutputRole)
    (fetch : String → Option String) (serverUrl : String) (baseFile : FsPath) :
    ∀ (imgs : List ImgInfo) (acc : List (OutputRole × String) × List String),
      downloadNodeImages role false fetch serverUrl baseFile imgs acc = acc := by
  intro imgs
  induction imgs with
  | nil => intro acc; rw [downloadNodeImages]
  | cons img rest ih =>
    intro acc
    obtain ⟨files, fs⟩ := acc
    rw [downloadNodeImages, if_neg (by simp)]
    exact ih (files, fs)

theorem downloadNodeImages_mem (role : OutputRole) (save : Bool)
    (fetch : String → Option String) (serverUrl : String) (baseFile : FsPath) :
    ∀ (imgs : List ImgInfo) (acc : List (OutputRole × String) × List String)
      (rp : OutputRole × String),
      rp ∈ (downloadNodeImages role save fetch serverUrl baseFile imgs acc).1 →
      rp ∈ acc.1 ∨ rp.1 = role := by
  intro imgs
  induction imgs with
  | nil => intro acc rp h; rw [downloadNodeImages] at h; exact Or.inl h
  | cons img rest ih =>
    intro acc rp h
    obtain ⟨files, fs⟩ := acc
    rw [downloadNodeImages] at h
    by_cases hs : save
    · rw [if_pos hs] at h
      cases hfetch : fetch (viewUrl serverUrl img) with
      | some content =>
        rw [hfetch] at h
        rcases ih _ rp h with hmem | hrole
        · rcases List.mem_append.mp hmem with hold | hnew
          · exact Or.inl hold
          · right
            rw [List.mem_singleton.mp hnew]
        · exact Or.inr hrole
      | none =>
        rw [hfetch] at h
        exact ih _ rp h
    · rw [if_neg hs] at h
      exact ih _ rp h

theorem downloadNodeImages_preserve (role : OutputRole) (save : Bool)
    (fetch : String → Option String) (serverUrl : String) (baseFile : FsPath) :
    ∀ (imgs : List ImgInfo) (acc : List (OutputRole × String) × List String)
      (rp : OutputRole × String), rp ∈ acc.1 →
      rp ∈ (downloadNodeImages role save fetch serverUrl baseFile imgs acc).1 := by
  intro imgs
  induction imgs with
  | nil => intro acc rp h; rw [downloadNodeImages]; exact h
  | cons img rest ih =>
    intro acc rp h
    obtain ⟨files, fs⟩ := acc
    rw [downloadNodeImages]
    by_cases hs : save
    · rw [if_pos hs]
      cases hfetch : fetch (viewUrl serverUrl img) with
      | some content =>
        exact ih _ rp (List.mem_append_left _ h)
      | none => exact ih _ rp h
    · rw [if_neg hs]
      exact ih _ rp h

theorem downloadNodeImages_produces (role : OutputRole)
    (fetch : String → Option String) (serverUrl : String) (baseFile : FsPath) :
    ∀ (imgs : List ImgInfo) (acc : List (OutputRole × String) × List String)
      (img : ImgInfo), img ∈ imgs → fetch (viewUrl serverUrl img) ≠ none →
      ∃ p, (role, p) ∈ (downloadNodeImages role true fetch serverUrl baseFile imgs acc).1 := by
  intro imgs
  induction imgs with
  | nil => intro acc img h; exact absurd h (List.not_mem_nil img)
  | cons hd rest ih =>
    intro acc img hmem hfetch
    obtain ⟨files, fs⟩ := acc
    rw [downloadNodeImages, if_pos rfl]
    rcases List.mem_cons.mp hmem with rfl | htail
    · cases hres : fetch (viewUrl serverUrl img) with
      | some content =>
        refine ⟨(getUniqueFilename fs baseFile).render, ?_⟩
        apply downloadNodeImages_preserve
        exact List.mem_append_right _ (List.mem_singleton.mpr rfl)
      | none => exact absurd hres hfetch
    · cases hres : fetch (viewUrl serverUrl hd) with
      | some content => exact ih _ img htail hfetch
      | none => exact ih _ img htail hfetch

theorem collectNode_skip (role : OutputRole) (fetch : String → Option String)
    (serverUrl : String) (baseFile : FsPath) (nodeEntry : Option NodeOutput)
    (acc : List (OutputRole × String) × List String) :
    collectNode role false fetch serverUrl baseFile nodeEntry acc = acc := by
  cases nodeEntry with
  | none => rfl
  | some n =>
    cases himg : n.images with
    | none => rw [collectNode, himg]
    | some imgs =>
      rw [collectNode, himg]
      exact downloadNodeImages_skip role fetch serverUrl baseFile imgs acc

theorem collectNode_mem (role : OutputRole) (save : Bool)
    (fetch : String → Option String) (serverUrl : String) (baseFile : FsPath)
    (nodeEntry : Option NodeOutput)
    (acc : List (OutputRole × String) × List String) (rp : OutputRole × String)
    (h : rp ∈ (collectNode role save fetch serverUrl baseFile nodeEntry acc).1) :
    rp ∈ acc.1 ∨ rp.1 = role := by
  cases nodeEntry with
  | none => exact Or.inl h
  | some n =>
    cases himg : n.images with
    | none => rw [collectNode, himg] at h; exact Or.inl h
    | some imgs =>
      rw [collectNode, himg] at h
      exact downloadNodeImages_mem role save fetch serverUrl baseFile imgs acc rp h

theorem collectNode_preserve (role : OutputRole) (save : Bool)
    (fetch : String → Option String) (serverUrl : String) (baseFile : FsPath)
    (nodeEntry : Option NodeOutput)
    (acc : List (OutputRole × String) × List String) (rp : OutputRole × String)
    (h : rp ∈ acc.1) :
    rp ∈ (collectNode role save fetch serverUrl baseFile nodeEntry acc).1 := by
  cases nodeEntry with
  | none => exact h
  | some n =>
    cases himg : n.images with
    | none => rw [collectNode, himg]; exact h
    | some imgs =>
      rw [collectNode, himg]
      exact downloadNodeImages_preserve role save fetch serverUrl baseFile imgs acc rp h

theorem collectNode_produces (role : OutputRole)
    (fetch : String → Option String) (serverUrl : String) (baseFile : FsPath)
    (n : NodeOutput) (imgs : List ImgInfo) (img : ImgInfo)
    (acc : List (OutputRole × String) × List String)
    (himg : n.images = some imgs) (hmem : img ∈ imgs)
    (hfetch : fetch (viewUrl serverUrl img) ≠ none) :
    ∃ p, (role, p)
      ∈ (collectNode role true fetch serverUrl baseFile (some n) acc).1 := by
  rw [collectNode, himg]
  exact downloadNodeImages_produces role fetch serverUrl baseFile imgs acc img hmem hfetch

/-! ## Claim C3 -/

/-- C3: with `save_unrefined = false`, the completed item's output paths
come only from the refined role (node `"52"`), never from the unrefined
role (node `"20"`); with `save_unrefined = true`, both roles contribute
whenever the worker produced (and serves) images for both. The final
conjunct ties the collection to the state machine: on a `completed`
history the poll step records status `completed` and returns exactly
the collected paths. -/
theorem claim3_save_unrefined_gating (fetch : String → Option String)
    (serverUrl outputDir baseName : String)
    (outputs : List (String × NodeOutput)) (fs : List String) :
    (∀ rp, rp ∈ (collectOutputs false fetch serverUrl outputDir baseName outputs fs).1 →
      rp.1 = OutputRole.refined)
    ∧ (∀ n20 imgs20 img20 n52 imgs52 img52,
        lookupNode outputs "20" = some n20 → n20.images = some imgs20 →
        img20 ∈ imgs20 → fetch (viewUrl serverUrl img20) ≠ none →
        lookupNode outputs "52" = some n52 → n52.images = some imgs52 →
        img52 ∈ imgs52 → fetch (viewUrl serverUrl img52) ≠ none →
        (∃ p, (OutputRole.unrefined, p)
            ∈ (collectOutputs true fetch serverUrl outputDir baseName outputs fs).1)
        ∧ (∃ p, (OutputRole.refined, p)
            ∈ (collectOutputs true fetch serverUrl outputDir baseName outputs fs).1))
    ∧ (∀ (saveUnrefined : Bool) (ph : PromptHistory) (st : ItemStatus),
        ph.completed = true →
        pollStep saveUnrefined fetch serverUrl outputDir baseName fs ph st
          = .completedJob { st with status := "completed", progress := 100 }
              ((collectOutputs saveUnrefined fetch serverUrl outputDir baseName
                  ph.outputs fs).1.map (fun rp => rp.2))
              (collectOutputs saveUnrefined fetch serverUrl outputDir baseName
                  ph.outputs fs).2) := by
  refine ⟨?_, ?_, ?_⟩
  · intro rp hmem
    rw [collectOutputs] at hmem
    simp only [collectNode_skip] at hmem
    rcases collectNode_mem _ _ _ _ _ _ _ _ hmem with hacc | hrole
    · exact absurd hacc (List.not_mem_nil rp)
    · exact hrole
  · intro n20 imgs20 img20 n52 imgs52 img52 h20 hi20 hm20 hf20 h52 hi52 hm52 hf52
    rw [collectOutputs]
    simp only [h20, h52]
    constructor
    · obtain ⟨p, hp⟩ := collectNode_produces .unrefined fetch serverUrl
        ⟨outputDir, baseName ++ "_", ".png"⟩ n20 imgs20 img20 ([], fs) hi20 hm20 hf20
      exact ⟨p, collectNode_preserve _ _ _ _ _ _ _ _ hp⟩
    · exact collectNode_produces .refined fetch serverUrl
        ⟨outputDir, baseName ++ "_refined", ".png"⟩ n52 imgs52 img52 _ hi52 hm52 hf52
  · intro saveUnrefined ph st hc
    rw [pollStep, if_pos hc]

/-- Witness for C3: a worker history with one artifact in each of the
two output roles and an always-200 fetch oracle. -/
theorem claim3_save_unrefined_gating_witness :
    (∀ rp, rp ∈ (collectOutputs false (fun _ => some "bytes") "http://localhost:8200"
        "out" "img"
        [("20", ⟨some [⟨"a.png", ""⟩]⟩), ("52", ⟨some [⟨"b.png", ""⟩]⟩)] []).1 →
      rp.1 = OutputRole.refined)
    ∧ (∃ p, (OutputRole.unrefined, p)
        ∈ (collectOutputs true (fun _ => some "bytes") "http://localhost:8200"
            "out" "img"
            [("20", ⟨some [⟨"a.png", ""⟩]⟩), ("52", ⟨some [⟨"b.png", ""⟩]⟩)] []).1)
    ∧ (∃ p, (OutputRole.refined, p)
        ∈ (collectOutputs true (fun _ => some "bytes") "http://localhost:8200"
            "out" "img"
            [("20", ⟨some [⟨"a.png", ""⟩]⟩), ("52", ⟨some [⟨"b.png", ""⟩]⟩)] []).1) := by
  have h := claim3_save_unrefined_gating (fun _ => some "bytes")
    "http://localhost:8200" "out" "img"
    [("20", ⟨some [⟨"a.png", ""⟩]⟩), ("52", ⟨some [⟨"b.png", ""⟩]⟩)] []
  obtain ⟨hu, hr⟩ := h.2.1 ⟨some [⟨"a.png", ""⟩]⟩ [⟨"a.png", ""⟩] ⟨"a.png", ""⟩
    ⟨some [⟨"b.png", ""⟩]⟩ [⟨"b.png", ""⟩] ⟨"b.png", ""⟩
    (by decide) rfl (by decide) (by simp) (by decide) rfl (by decide) (by simp)
  exact ⟨h.1, hu, hr⟩

/-! ## Claim C9 -/

/-- Counterexample to C8 as stated: at a concrete poll of a history
whose `status_str` is `'error'`, the status record's status becomes
`'error'` — not `'failed'` — and its error-detail field is left unset
(`app.py` only assigns `['status']` on this path), so the claimed
conjunction (status `'failed'` and error detail copied from the worker)
is false. -/
theorem claim8_counterexample :
    pollStep false (fun _ => none) "http://localhost:8200" "out" "img" []
        { completed := false, statusStr := some "error",
          messages := ["node 12 failed"], outputs := [], execution := none }
        { status := "processing", progress := 50, error := none }
      = .failedJob { status := "error", progress := 50, error := none }
    ∧ ("error" : String) ≠ "failed"
    ∧ ¬ (pollStep false (fun _ => none) "http://localhost:8200" "out" "img" []
          { completed := false, statusStr := some "error",
            messages := ["node 12 failed"], outputs := [], execution := none }
          { status := "processing", progress := 50, error := none }
        = .failedJob ⟨"failed", 50, some ("node 12 failed")⟩) := by
  refine ⟨?_, by decide, ?_⟩
  · rw [pollStep]
    simp
  · intro h
    rw [pollStep] at h
    simp at h

/-- C8 as amended: when a poll observes the worker reporting the
explicit error status string, the item's status record transitions to
the terminal status `'error'` (the source's name for this state — not
`'failed'`), no download or retry happens (the step returns the
failure outcome, leaving the filesystem untouched and producing no
result record), and the status record's error-detail field is left as
it was; the `batchProcess.py` variant returns the worker's
`status.messages` as the error detail of its result dictionary instead
of writing it to a status record. -/
theorem claim8_worker_error_amended (saveUnrefined : Bool)
    (fetch : String → Option String) (serverUrl outputDir baseName : String)
    (fs : List String) (ph : PromptHistory) (st : ItemStatus)
    (hnc : ph.completed = false) (hs : ph.statusStr = some "error") :
    pollStep saveUnrefined fetch serverUrl outputDir baseName fs ph st
      = .failedJob { st with status := "error" }
    ∧ ({ st with status := "error" } : ItemStatus).error = st.error
    ∧ waitForCompletionStep ph = some ⟨"error", [], some ph.messages⟩ := by
  refine ⟨?_, rfl, ?_⟩
  · rw [pollStep, if_neg (by rw [hnc]; exact Bool.false_ne_true), if_pos hs]
  · rw [waitForCompletionStep, if_neg (by rw [hnc]; exact Bool.false_ne_true),
      if_pos hs]

/-- Witness for the amended C8 at a concrete error history. -/
theorem claim8_worker_error_amended_witness :
    pollStep true (fun _ => some "bytes") "http://localhost:8201" "out" "img"
        ["out/img_.png"]
        { completed := false, statusStr := some "error",
          messages := ["bad node"], outputs := [], execution := none }
        { status := "processing", progress := 30, error := none }
      = .failedJob { status := "error", progress := 30, error := none }
    ∧ waitForCompletionStep
          { completed := false, statusStr := some "error",
            messages := ["bad node"], outputs := [], execution := none }
        = some ⟨"error", [], some ["bad node"]⟩ := by
  have h := claim8_worker_error_amended true (fun _ => some "bytes")
    "http://localhost:8201" "out" "img" ["out/img_.png"]
    { completed := false, statusStr := some "error",
      messages := ["bad node"], outputs := [], execution := none }
    { status := "processing", progress := 30, error := none }
    rfl rfl
  exact ⟨h.1, h.2.2⟩

/-! ## Batch coordinator loop

From `process_batch_with_live_updates` in `app.py`: the
`asyncio.as_completed` consumption loop, its cooperative stop check,
the cancellation block, and the end-of-batch cleanup. The loop is
modelled as a deterministic fold over the trace of terminal task
events, listed in *completion* order (which `as_completed` does not
guarantee to be the submission order). Non-terminal status writes by
still-running tasks are not part of the trace; a modelled run is an
interleaving in which pending items have not advanced past their last
recorded status. -/

/-- One submitted batch item as the coordinator sees it. -/
structure BatchItem where
  imageId : String
deriving DecidableEq, Repr

/-- The terminal outcome of one item's task as the loop observes it:
either the task returned a result record carrying output paths, or it
returned `None` / raised (in which case the task itself has already
written the given terminal status — `'failed'` or `'error'` — to the
item's status record). -/
inductive TaskOutcome where
  | completedOk (outputPaths : List String)
  | failed (terminalStatus : String)
deriving DecidableEq, Repr

/-- One terminal event: the task of the item at submission index `idx`
finished with `outcome`. -/
structure TaskEvent where
  idx : Nat
  outcome : TaskOutcome
deriving DecidableEq, Repr

/-- The result record a successful task returns
(`{'image_id', 'output_paths', ...}`). -/
structure JobResult where
  imageId : String
  outputPaths : List String
deriving DecidableEq, Repr

/-- The coordinator's shared mutable state: the per-item status records
(`self.processing_status`, projected to the status string), the
aggregated result list (`all_results` / `self.results_cache`), the
active websocket registry (`self.ws_connections`, projected to item
ids), and the loop's `completed_count`. -/
structure BatchState where
  statuses : List (String × String)
  results : List JobResult
  wsConnections : List String
  completedCount : Nat
deriving DecidableEq, Repr

/-- `self.processing_status[image_id]['status'] = s` for an existing
key (all keys are created at dispatch; the cancel block additionally
guards with `if image_id in self.processing_status`). -/
def setStatus (sts : List (String × String)) (id s : String) :
    List (String × String) :=
  sts.map (fun p => if p.1 = id then (id, s) else p)

/-- The id of the item at submission index `idx` (traces of well-formed
runs only mention valid indices; the empty-string default is dead). -/
def itemIdAt (items : List BatchItem) (idx : Nat) : String :=
  match items[idx]? with
  | some it => it.imageId
  | none => ""

/-- Effect of observing one terminal event: the task has written its
terminal status and popped its websocket from the registry; the loop
appends a successful result to `all_results` and bumps
`completed_count` (it bumps it for failures too — only cancellations
skip the bump). -/
def applyEvent (items : List BatchItem) (st : BatchState) (e : TaskEvent) :
    BatchState :=
  let id := itemIdAt items e.idx
  match e.outcome with
  | .completedOk paths =>
    { statuses := setStatus st.statuses id "completed"
      results := st.results ++ [⟨id, paths⟩]
      wsConnections := st.wsConnections.erase id
      completedCount := st.completedCount + 1 }
  | .failed s =>
    { statuses := setStatus st.statuses id s
      results := st.results
      wsConnections := st.wsConnections.erase id
      completedCount := st.completedCount + 1 }

/-- How control leaves `process_batch_with_live_updates`: a normal
`return all_results`, or an exception propagating out of the coroutine
(it escapes `run_until_complete` into the caller's generic
`except Exception` handler at `app.py` line 1183, which only prints and
emits `processing_error` — the result list is lost). -/
inductive BatchOutcome where
  | returned (results : List JobResult)
  | raisedAttributeError
deriving DecidableEq, Repr

/-- The `as_completed` loop: the stop flag is checked at the top of
each iteration; `stopCountdown` is the number of terminal events that
occur before the external stop request is visible.

When the flag is observed, the cancellation block runs — but `tasks`
holds the bare *coroutine objects* returned by calling the async method
(`app.py` lines 591–595; they are never wrapped by `create_task` /
`ensure_future`), and the block's first statement `if not t.done():`
(line 603) sits outside the inner `try`. A coroutine object has no
`done` attribute, and the loop body only runs when `tasks` is
non-empty, so the block raises `AttributeError` on the first element
before closing any websocket, marking any item `cancelled`, or
returning `all_results`: the shared state is left exactly as it was at
the top of the iteration.

On natural exhaustion of the trace the post-loop cleanup (lines
667–687) closes and clears every remaining websocket connection and
returns `all_results`. -/
def runBatchLoop (items : List BatchItem) :
    BatchState → List TaskEvent → Nat → BatchState × BatchOutcome
  | st, _, 0 => (st, .raisedAttributeError)
  | st, [], _ + 1 => ({ st with wsConnections := [] }, .returned st.results)
  | st, e :: rest, k + 1 => runBatchLoop items (applyEvent items st e) rest k

/-- Coordinator state at dispatch: every item's status record is
created in `queued`; the registry holds the monitors of in-flight
items (each task removes its own entry on reaching a terminal state —
only the final clearing matters to the claims). -/
def initialBatchState (items : List BatchItem) : BatchState :=
  { statuses := items.map (fun it => (it.imageId, "queued"))
    results := []
    wsConnections := items.map (fun it => it.imageId)
    completedCount := 0 }

/-- `process_batch_with_live_updates` for a dispatched batch, run
against a completion-order trace and a stop countdown: the final shared
state together with how the coroutine exited. -/
def processBatchWithLiveUpdates (items : List BatchItem)
    (trace : List TaskEvent) (stopAfter : Nat) : BatchState × BatchOutcome :=
  runBatchLoop items (initialBatchState items) trace stopAfter

/-! ## Claim C2 (code bug) -/

/-- C2, evaluated at the failing input. Batch of two items `A`, `B`
where `B` (submission index 1) completes first and the stop flag is
observed after exactly `k = 1` terminal event. The claim says the
function then returns the one completed result, marks the remaining
item `cancelled`, and leaves the connection registry empty. Instead the
cancellation block's very first statement `if not t.done():` raises
`AttributeError` (the `tasks` list holds coroutine objects, which have
no `done` method, and the statement is outside the inner `try`), so the
coroutine exits by exception: no result sequence is returned, no item's
status record is ever set to `cancelled` (the not-yet-terminal `A`
stays `queued` and `B` keeps `completed`), and `A`'s websocket
connection is still registered. Every conjunct of the claim is false of
the code at this input. -/
theorem claim2_cancellation_failing_input :
    (processBatchWithLiveUpdates [⟨"A"⟩, ⟨"B"⟩]
        [⟨1, .completedOk ["out/b_refined.png"]⟩] 1).2
      = .raisedAttributeError
    ∧ (processBatchWithLiveUpdates [⟨"A"⟩, ⟨"B"⟩]
        [⟨1, .completedOk ["out/b_refined.png"]⟩] 1).2
      ≠ .returned [⟨"B", ["out/b_refined.png"]⟩]
    ∧ (processBatchWithLiveUpdates [⟨"A"⟩, ⟨"B"⟩]
        [⟨1, .completedOk ["out/b_refined.png"]⟩] 1).1.statuses
      = [("A", "queued"), ("B", "completed")]
    ∧ ("A", "cancelled")
        ∉ (processBatchWithLiveUpdates [⟨"A"⟩, ⟨"B"⟩]
            [⟨1, .completedOk ["out/b_refined.png"]⟩] 1).1.statuses
    ∧ ("B", "cancelled")
        ∉ (processBatchWithLiveUpdates [⟨"A"⟩, ⟨"B"⟩]
            [⟨1, .completedOk ["out/b_refined.png"]⟩] 1).1.statuses
    ∧ (processBatchWithLiveUpdates [⟨"A"⟩, ⟨"B"⟩]
        [⟨1, .completedOk ["out/b_refined.png"]⟩] 1).1.wsConnections
      = ["A"] := by
  refine ⟨?_, ?_, ?_, ?_, ?_, ?_⟩ <;> decide

/-! ## Mutable JSON documents: heap model

Template instantiation (`modify_workflow_for_image` in
`batchProcess.py`, plus the prompt/seed rewrites in `app.py` lines
763–779) mutates Python dicts in place; the deep-copy boundary is
`json.loads(json.dumps(workflow))` (`get_current_workflow_copy` in
`workflow_manager.py` uses the identical idiom). To reason about
aliasing and in-place mutation we model dicts as objects on an explicit
heap: `json.dumps` serializes the reachable object graph into a pure
tree, and `json.loads` allocates a fresh object per tree node. -/

/-- Heap address of one mutable dict. -/
abbrev Addr := Nat

/-- An immutable JSON scalar. -/
inductive JLeaf where
  | str (s : String)
  | int (n : Int)
  | bool (b : Bool)
deriving DecidableEq, Repr

/-- A Python value stored in a dict field: a scalar, or a reference to
a mutable dict on the heap. -/
inductive JVal where
  | leaf (l : JLeaf)
  | ref (a : Addr)
deriving DecidableEq, Repr

/-- The field list of one mutable dict (Python dicts preserve insertion
order; keys of JSON-loaded dicts are unique). -/
abbrev JObj := List (String × JVal)

/-- The heap: allocated dicts by address. -/
abbrev Heap := List (Addr × JObj)

/-- The serialized (pure) form of a document, as produced by
`json.dumps` / consumed by `json.loads`. -/
inductive JTree where
  | leaf (l : JLeaf)
  | obj (fields : List (String × JTree))
deriving Repr

def Heap.lookupObj (h : Heap) (a : Addr) : Option JObj :=
  (h.find? (fun c => c.1 = a)).map (fun c => c.2)

/-- In-place replacement of the dict at address `a`. -/
def Heap.setObj (h : Heap) (a : Addr) (o : JObj) : Heap :=
  h.map (fun c => if c.1 = a then (a, o) else c)

def Heap.dom (h : Heap) : List Addr := h.map (fun c => c.1)

mutual

/-- `json.dumps`, with fuel (the serialized graphs are acyclic — Python
raises on circular structures — so some fuel always suffices), also
returning the ghost trace of dict addresses visited in order. -/
def dumpVal (h : Heap) : Nat → JVal → Option (JTree × List Addr)
  | _, .leaf l => some (.leaf l, [])
  | 0, .ref _ => none
  | fuel + 1, .ref a =>
    match h.lookupObj a with
    | none => none
    | some o =>
      match dumpObj h fuel o with
      | none => none
      | some (ts, vs) => some (.obj ts, a :: vs)

/-- Serialization of a field list (same fuel; see `dumpVal`). -/
def dumpObj (h : Heap) : Nat → JObj → Option (List (String × JTree) × List Addr)
  | _, [] => some ([], [])
  | fuel, (k, v) :: rest =>
    match dumpVal h fuel v with
    | none => none
    | some (t, vs1) =>
      match dumpObj h fuel rest with
      | none => none
      | some (ts, vs2) => some ((k, t) :: ts, vs1 ++ vs2)

end

mutual

/-- `json.loads`: build a fresh object per tree node, allocating
addresses from `n` upward; returns the value, the new cells and the
next free address. -/
def allocTree : JTree → Nat → JVal × Heap × Nat
  | .leaf l, n => (.leaf l, [], n)
  | .obj fields, n =>
    match allocFields fields n with
    | (fs, cells, n1) => (.ref n1, cells ++ [(n1, fs)], n1 + 1)

/-- `json.loads` on a field list (see `allocTree`). -/
def allocFields : List (String × JTree) → Nat → JObj × Heap × Nat
  | [], n => ([], [], n)
  | (k, t) :: rest, n =>
    match allocTree t n with
    | (v, cells1, n1) =>
      match allocFields rest n1 with
      | (fs, cells2, n2) => ((k, v) :: fs, cells1 ++ cells2, n2)

end

/-- First-match field lookup in a dict (`d[k]` / `k in d`). -/
def findField (o : JObj) (k : String) : Option JVal :=
  (o.find? (fun p => p.1 = k)).map (fun p => p.2)

/-- Subscript read `v[k]`: only a dict reference supports it. -/
def getFieldVal (h : Heap) (v : JVal) (k : String) : Option JVal :=
  match v with
  | .ref a =>
    match h.lookupObj a with
    | some o => findField o k
    | none => none
  | .leaf _ => none

/-- Dict assignment `d[k] = x`: overwrite the existing key or append a
new one (insertion order). -/
def JObj.setKey (o : JObj) (k : String) (x : JVal) : JObj :=
  if o.any (fun p => p.1 = k) then
    o.map (fun p => if p.1 = k then (k, x) else p)
  else o ++ [(k, x)]

/-- Subscript assignment `v[k] = x`: mutates the referenced dict in
place; fails (Python `TypeError`) on a scalar. -/
def setFieldAt (h : Heap) (v : JVal) (k : String) (x : JVal) : Option Heap :=
  match v with
  | .ref a =>
    match h.lookupObj a with
    | some o => some (h.setObj a (JObj.setKey o k x))
    | none => none
  | .leaf _ => none

/-- The triple-subscript assignment `root[k1][k2][k3] = x` used by every
rewrite of the instantiation code; `none` models the uncaught
`KeyError` / `TypeError` when a step does not resolve. -/
def setPath2 (h : Heap) (v : JVal) (k1 k2 k3 : String) (x : JVal) : Option Heap :=
  match getFieldVal h v k1 with
  | none => none
  | some v1 =>
    match getFieldVal h v1 k2 with
    | none => none
    | some v2 => setFieldAt h v2 k3 x

/-- `modify_workflow_for_image` (`batchProcess.py`): deep-copy the
shared template via the `json.loads(json.dumps(...))` round trip, then
`if "1" in workflow_copy: workflow_copy["1"]["inputs"]["image"] =
image_filename`. `next` is the allocator's fresh-address frontier. -/
def modifyWorkflowForImage (h : Heap) (root : JVal) (fuel next : Nat)
    (img : String) : Option (Heap × JVal × Nat) :=
  match dumpVal h fuel root with
  | none => none
  | some (t, _) =>
    match allocTree t next with
    | (v, cells, n1) =>
      let h1 := h ++ cells
      if (getFieldVal h1 v "1").isSome then
        match setPath2 h1 v "1" "inputs" "image" (.leaf (.str img)) with
        | some h2 => some (h2, v, n1)
        | none => none
      else some (h1, v, n1)

/-- One `if nodeid in workflow_copy: workflow_copy[nodeid]["inputs"]["text"]
= prompt` block of `app.py` (nodes `"10"` and `"15"`); a missing or
scalar `"inputs"` raises — `none`. -/
def guardedSetText (h : Heap) (v : JVal) (k1 : String) (x : JVal) :
    Option Heap :=
  if (getFieldVal h v k1).isSome then setPath2 h v k1 "inputs" "text" x
  else some h

/-- One `if nodeid in workflow_copy and "inputs" in workflow_copy[nodeid]:
workflow_copy[nodeid]["inputs"][seedKey] = -1` block of `app.py`
(node `"12"` / `noise_seed` and node `"46"` / `seed`). A scalar node
value fails the membership test here, where Python would instead do a
substring test — equivalent on all well-formed (dict-valued) templates. -/
def guardedSetSeed (h : Heap) (v : JVal) (k1 seedKey : String) : Option Heap :=
  match getFieldVal h v k1 with
  | some v1 =>
    if (getFieldVal h v1 "inputs").isSome then
      setPath2 h v k1 "inputs" seedKey (.leaf (.int (-1)))
    else some h
  | none => some h

/-- The full per-item instantiation performed by
`process_single_image_with_socketio_updates` (`app.py` lines 763–779):
deep copy with input-image rewrite, then positive/negative prompt
rewrites, then both random-seed fields forced to the fresh-randomness
sentinel `-1`. -/
def instantiateJob (h : Heap) (root : JVal) (fuel next : Nat)
    (img pos neg : String) : Option (Heap × JVal × Nat) :=
  match modifyWorkflowForImage h root fuel next img with
  | none => none
  | some (h1, v, n1) =>
    match guardedSetText h1 v "10" (.leaf (.str pos)) with
    | none => none
    | some h2 =>
      match guardedSetText h2 v "15" (.leaf (.str neg)) with
      | none => none
      | some h3 =>
        match guardedSetSeed h3 v "12" "noise_seed" with
        | none => none
        | some h4 =>
          match guardedSetSeed h4 v "46" "seed" with
          | none => none
          | some h5 => some (h5, v, n1)

/-! ### Tree-level mirror of the instantiation

The same rewrites expressed on serialized documents; the
correspondence theorems below show the heap pipeline refines this pure
function, which is what lets us read off field values of the
instantiated document. -/

def findTreeField (fields : List (String × JTree)) (k : String) :
    Option JTree :=
  (fields.find? (fun p => p.1 = k)).map (fun p => p.2)

def treeGet (t : JTree) (k : String) : Option JTree :=
  match t with
  | .obj fields => findTreeField fields k
  | .leaf _ => none

/-- Replace the first field with key `k` (the one subscripting
resolves to). -/
def updFirstField (fields : List (String × JTree)) (k : String)
    (newT : JTree) : List (String × JTree) :=
  match fields with
  | [] => []
  | (k0, t0) :: rest =>
    if k0 = k then (k0, newT) :: rest
    else (k0, t0) :: updFirstField rest k newT

/-- Tree-level dict assignment (mirror of `JObj.setKey`). -/
def setKeyTree (fields : List (String × JTree)) (k : String) (x : JTree) :
    List (String × JTree) :=
  if fields.any (fun p => p.1 = k) then
    fields.map (fun p => if p.1 = k then (k, x) else p)
  else fields ++ [(k, x)]

/-- Tree-level `root[k1][k2][k3] = x`. -/
def treeSetPath2 (t : JTree) (k1 k2 k3 : String) (x : JTree) : Option JTree :=
  match t with
  | .leaf _ => none
  | .obj fields =>
    match findTreeField fields k1 with
    | none => none
    | some t1 =>
      match t1 with
      | .leaf _ => none
      | .obj fields1 =>
        match findTreeField fields1 k2 with
        | none => none
        | some t2 =>
          match t2 with
          | .leaf _ => none
          | .obj fields2 =>
            some (.obj (updFirstField fields k1
              (.obj (updFirstField fields1 k2
                (.obj (setKeyTree fields2 k3 x))))))

/-- Tree-level mirror of `guardedSetText`. -/
def treeGuardedSetText (t : JTree) (k1 : String) (x : JTree) : Option JTree :=
  if (treeGet t k1).isSome then treeSetPath2 t k1 "inputs" "text" x
  else some t

/-- Tree-level mirror of `guardedSetSeed`. -/
def treeGuardedSetSeed (t : JTree) (k1 seedKey : String) : Option JTree :=
  match treeGet t k1 with
  | some t1 =>
    if (treeGet t1 "inputs").isSome then
      treeSetPath2 t k1 "inputs" seedKey (.leaf (.int (-1)))
    else some t
  | none => some t

/-- Tree-level mirror of `modifyWorkflowForImage` (after the deep copy,
which is the identity on serialized documents). -/
def treeModifyForImage (t : JTree) (img : String) : Option JTree :=
  if (treeGet t "1").isSome then
    treeSetPath2 t "1" "inputs" "image" (.leaf (.str img))
  else some t

/-- Tree-level mirror of the full instantiation. -/
def instTree (t : JTree) (img pos neg : String) : Option JTree :=
  match treeModifyForImage t img with
  | none => none
  | some t1 =>
    match treeGuardedSetText t1 "10" (.leaf (.str pos)) with
    | none => none
    | some t2 =>
      match treeGuardedSetText t2 "15" (.leaf (.str neg)) with
      | none => none
      | some t3 =>
        match treeGuardedSetSeed t3 "12" "noise_seed" with
        | none => none
        | some t4 => treeGuardedSetSeed t4 "46" "seed"

/-! ### Heap access lemmas -/

theorem Heap.lookupObj_append_left {h : Heap} {a : Addr} {o : JObj}
    (hl : h.lookupObj a = some o) (h2 : Heap) :
    Heap.lookupObj (h ++ h2) a = some o := by
  unfold Heap.lookupObj at hl ⊢
  rw [List.find?_append]
  cases hfind : h.find? (fun c => c.1 = a) with
  | none => rw [hfind] at hl; exact absurd hl (by simp)
  | some c => rw [hfind] at hl; simp [hfind, hl]

theorem Heap.lookupObj_append_none {h : Heap} {a : Addr}
    (hl : h.lookupObj a = none) (h2 : Heap) :
    Heap.lookupObj (h ++ h2) a = h2.lookupObj a := by
  unfold Heap.lookupObj at hl ⊢
  rw [List.find?_append]
  cases hfind : h.find? (fun c => c.1 = a) with
  | none => simp
  | some c => rw [hfind] at hl; exact absurd hl (by simp)

theorem Heap.setObj_lookup_self {h : Heap} {a : Addr} {o0 : JObj}
    (hl : h.lookupObj a = some o0) (o : JObj) :
    Heap.lookupObj (h.setObj a o) a = some o := by
  unfold Heap.lookupObj at hl
  unfold Heap.lookupObj Heap.setObj
  induction h with
  | nil => simp at hl
  | cons c rest ih =>
    by_cases hc : c.1 = a
    · rw [List.map_cons, if_pos hc, List.find?_cons_of_pos _ (by simp)]
      rfl
    · rw [List.find?_cons_of_neg _ (by simp [hc])] at hl
      rw [List.map_cons, if_neg hc, List.find?_cons_of_neg _ (by simp [hc])]
      exact ih hl

theorem Heap.setObj_lookup_other {h : Heap} {a a2 : Addr} (hne : a2 ≠ a)
    (o : JObj) :
    Heap.lookupObj (h.setObj a o) a2 = h.lookupObj a2 := by
  unfold Heap.lookupObj Heap.setObj
  induction h with
  | nil => simp
  | cons c rest ih =>
    by_cases hc : c.1 = a
    · simp only [List.map_cons, if_pos hc]
      rw [List.find?_cons_of_neg _ (by simp [Ne.symm hne]),
        List.find?_cons_of_neg _ (by simp [hc, Ne.symm hne])]
      exact ih
    · simp only [List.map_cons, if_neg hc]
      by_cases hc2 : c.1 = a2
      · rw [List.find?_cons_of_pos _ (by simp [hc2]),
          List.find?_cons_of_pos _ (by simp [hc2])]
      · rw [List.find?_cons_of_neg _ (by simp [hc2]),
          List.find?_cons_of_neg _ (by simp [hc2])]
        exact ih

/-! ### Serialization lemmas: fuel monotonicity, domains, agreement -/

theorem dumpVal_leaf (h : Heap) (f : Nat) (l : JLeaf) :
    dumpVal h f (.leaf l) = some (.leaf l, []) := by
  cases f <;> rw [dumpVal]

theorem dumpVal_ref_obj (h : Heap) (f : Nat) (a : Addr) (o : JObj)
    (ts : List (String × JTree)) (vs : List Addr)
    (hl : h.lookupObj a = some o) (ho : dumpObj h f o = some (ts, vs)) :
    dumpVal h (f + 1) (.ref a) = some (.obj ts, a :: vs) := by
  rw [dumpVal, hl]
  show (match dumpObj h f o with
    | none => none
    | some (ts, vs) => some (JTree.obj ts, a :: vs)) = _
  rw [ho]

theorem dumpVal_ref_inv (h : Heap) (f : Nat) (a : Addr) (r : JTree × List Addr)
    (hr : dumpVal h (f + 1) (.ref a) = some r) :
    ∃ o ts vs, h.lookupObj a = some o ∧ dumpObj h f o = some (ts, vs)
      ∧ r = (.obj ts, a :: vs) := by
  rw [dumpVal] at hr
  split at hr
  · exact absurd hr (by simp)
  · rename_i o hl
    split at hr
    · exact absurd hr (by simp)
    · rename_i ts vs ho
      exact ⟨o, ts, vs, hl, ho, (Option.some.inj hr).symm⟩

theorem dumpVal_leaf_inv (h : Heap) (f : Nat) (l : JLeaf)
    (r : JTree × List Addr) (hr : dumpVal h f (.leaf l) = some r) :
    r = (.leaf l, []) := by
  rw [dumpVal_leaf] at hr
  exact (Option.some.inj hr).symm

theorem dumpObj_nil (h : Heap) (f : Nat) :
    dumpObj h f ([] : JObj) = some ([], []) := by
  rw [dumpObj]

theorem dumpObj_nil_inv (h : Heap) (f : Nat)
    (r : List (String × JTree) × List Addr)
    (hr : dumpObj h f ([] : JObj) = some r) : r = ([], []) := by
  rw [dumpObj_nil] at hr
  exact (Option.some.inj hr).symm

theorem dumpObj_cons_eq (h : Heap) (f : Nat) (k : String) (v : JVal)
    (rest : JObj) (t : JTree) (vs1 : List Addr) (ts : List (String × JTree))
    (vs2 : List Addr) (hv : dumpVal h f v = some (t, vs1))
    (hrest : dumpObj h f rest = some (ts, vs2)) :
    dumpObj h f ((k, v) :: rest) = some ((k, t) :: ts, vs1 ++ vs2) := by
  rw [dumpObj, hv]
  show (match dumpObj h f rest with
    | none => none
    | some (ts, vs2) => some ((k, t) :: ts, vs1 ++ vs2)) = _
  rw [hrest]

theorem dumpObj_cons_inv (h : Heap) (f : Nat) (k : String) (v : JVal)
    (rest : JObj) (r : List (String × JTree) × List Addr)
    (hr : dumpObj h f ((k, v) :: rest) = some r) :
    ∃ t vs1 ts vs2, dumpVal h f v = some (t, vs1)
      ∧ dumpObj h f rest = some (ts, vs2) ∧ r = ((k, t) :: ts, vs1 ++ vs2) := by
  rw [dumpObj] at hr
  split at hr
  · exact absurd hr (by simp)
  · rename_i t vs1 hv
    split at hr
    · exact absurd hr (by simp)
    · rename_i ts vs2 ho
      exact ⟨t, vs1, ts, vs2, hv, ho, (Option.some.inj hr).symm⟩

theorem dumpVal_zero_ref_inv (h : Heap) (a : Addr) (r : JTree × List Addr)
    (hr : dumpVal h 0 (.ref a) = some r) : False := by
  rw [dumpVal] at hr
  exact absurd hr (by simp)

theorem dumpObj_mono_of_val {h : Heap} {f : Nat}
    (hval : ∀ v r, dumpVal h f v = some r → dumpVal h (f + 1) v = some r) :
    ∀ o r, dumpObj h f o = some r → dumpObj h (f + 1) o = some r := by
  intro o
  induction o with
  | nil => intro r hr; rw [dumpObj_nil_inv h f r hr]; exact dumpObj_nil h (f + 1)
  | cons kv rest ih =>
    intro r hr
    obtain ⟨k, v⟩ := kv
    obtain ⟨t, vs1, ts, vs2, hv, hrest, rfl⟩ := dumpObj_cons_inv h f k v rest r hr
    exact dumpObj_cons_eq h (f + 1) k v rest t vs1 ts vs2
      (hval v (t, vs1) hv) (ih (ts, vs2) hrest)

theorem dumpVal_mono_succ (h : Heap) :
    ∀ f v r, dumpVal h f v = some r → dumpVal h (f + 1) v = some r := by
  intro f
  induction f with
  | zero =>
    intro v r hr
    cases v with
    | leaf l => rw [dumpVal_leaf_inv h 0 l r hr]; exact dumpVal_leaf h 1 l
    | ref a => exact absurd hr (by rw [dumpVal]; simp)
  | succ f ih =>
    intro v r hr
    cases v with
    | leaf l => rw [dumpVal_leaf_inv h (f + 1) l r hr]; exact dumpVal_leaf h (f + 2) l
    | ref a =>
      obtain ⟨o, ts, vs, hl, ho, rfl⟩ := dumpVal_ref_inv h f a r hr
      exact dumpVal_ref_obj h (f + 1) a o ts vs hl
        (dumpObj_mono_of_val ih o (ts, vs) ho)

theorem dumpVal_mono (h : Heap) {f g : Nat} (hfg : f ≤ g) :
    ∀ v r, dumpVal h f v = some r → dumpVal h g v = some r := by
  induction g with
  | zero =>
    intro v r hr
    have hf0 : f = 0 := Nat.le_zero.mp hfg
    rwa [hf0] at hr
  | succ g ih =>
    intro v r hr
    rcases Nat.lt_or_ge f (g + 1) with hlt | hge
    · exact dumpVal_mono_succ h g v r (ih (by omega) v r hr)
    · have hfg1 : f = g + 1 := by omega
      rwa [hfg1] at hr

theorem dumpObj_mono (h : Heap) {f g : Nat} (hfg : f ≤ g) :
    ∀ o r, dumpObj h f o = some r → dumpObj h g o = some r := by
  induction g with
  | zero =>
    intro o r hr
    have hf0 : f = 0 := Nat.le_zero.mp hfg
    rwa [hf0] at hr
  | succ g ih =>
    intro o r hr
    rcases Nat.lt_or_ge f (g + 1) with hlt | hge
    · exact dumpObj_mono_of_val (dumpVal_mono_succ h g) o r (ih (by omega) o r hr)
    · have hfg1 : f = g + 1 := by omega
      rwa [hfg1] at hr

theorem dumpObj_visited_of_val {h : Heap} {f : Nat}
    (hval : ∀ v t vs, dumpVal h f v = some (t, vs) →
      ∀ a ∈ vs, (h.lookupObj a).isSome) :
    ∀ o ts vs, dumpObj h f o = some (ts, vs) →
      ∀ a ∈ vs, (h.lookupObj a).isSome := by
  intro o
  induction o with
  | nil =>
    intro ts vs hr a ha
    obtain ⟨-, hvs⟩ := Prod.mk.injEq _ _ _ _ ▸ dumpObj_nil_inv h f (ts, vs) hr
    rw [hvs] at ha
    exact absurd ha (List.not_mem_nil a)
  | cons kv rest ih =>
    intro ts vs hr a ha
    obtain ⟨k, v⟩ := kv
    obtain ⟨t, vs1, ts2, vs2, hv, hrest, hreq⟩ :=
      dumpObj_cons_inv h f k v rest (ts, vs) hr
    obtain ⟨-, hvs⟩ := Prod.mk.injEq _ _ _ _ ▸ hreq
    rw [hvs] at ha
    rcases List.mem_append.mp ha with h1 | h2
    · exact hval v t vs1 hv a h1
    · exact ih ts2 vs2 hrest a h2

theorem dumpVal_visited (h : Heap) :
    ∀ f v t vs, dumpVal h f v = some (t, vs) →
      ∀ a ∈ vs, (h.lookupObj a).isSome := by
  intro f
  induction f with
  | zero =>
    intro v t vs hr a ha
    cases v with
    | leaf l =>
      obtain ⟨-, hvs⟩ := Prod.mk.injEq _ _ _ _ ▸ dumpVal_leaf_inv h 0 l (t, vs) hr
      rw [hvs] at ha
      exact absurd ha (List.not_mem_nil a)
    | ref a0 => exact absurd (dumpVal_zero_ref_inv h a0 (t, vs) hr) not_false
  | succ f ih =>
    intro v t vs hr a ha
    cases v with
    | leaf l =>
      obtain ⟨-, hvs⟩ :=
        Prod.mk.injEq _ _ _ _ ▸ dumpVal_leaf_inv h (f + 1) l (t, vs) hr
      rw [hvs] at ha
      exact absurd ha (List.not_mem_nil a)
    | ref a0 =>
      obtain ⟨o, ts, vso, hl, ho, hreq⟩ := dumpVal_ref_inv h f a0 (t, vs) hr
      obtain ⟨-, hvs⟩ := Prod.mk.injEq _ _ _ _ ▸ hreq
      rw [hvs] at ha
      rcases List.mem_cons.mp ha with rfl | htail
      · simp [hl]
      · exact dumpObj_visited_of_val ih o ts vso ho a htail

theorem dumpObj_visited (h : Heap) (f : Nat) :
    ∀ o ts vs, dumpObj h f o = some (ts, vs) →
      ∀ a ∈ vs, (h.lookupObj a).isSome :=
  dumpObj_visited_of_val (dumpVal_visited h f)

theorem dumpObj_agree_of_val {h h2 : Heap} {f : Nat}
    (hval : ∀ v t vs, dumpVal h f v = some (t, vs) →
      (∀ a ∈ vs, h2.lookupObj a = h.lookupObj a) → dumpVal h2 f v = some (t, vs)) :
    ∀ o ts vs, dumpObj h f o = some (ts, vs) →
      (∀ a ∈ vs, h2.lookupObj a = h.lookupObj a) →
      dumpObj h2 f o = some (ts, vs) := by
  intro o
  induction o with
  | nil =>
    intro ts vs hr _
    obtain ⟨hts, hvs⟩ := Prod.mk.injEq _ _ _ _ ▸ dumpObj_nil_inv h f (ts, vs) hr
    rw [hts, hvs]
    exact dumpObj_nil h2 f
  | cons kv rest ih =>
    intro ts vs hr hagree
    obtain ⟨k, v⟩ := kv
    obtain ⟨t, vs1, ts2, vs2, hv, hrest, hreq⟩ :=
      dumpObj_cons_inv h f k v rest (ts, vs) hr
    obtain ⟨hts, hvs⟩ := Prod.mk.injEq _ _ _ _ ▸ hreq
    rw [hts, hvs]
    rw [hvs] at hagree
    exact dumpObj_cons_eq h2 f k v rest t vs1 ts2 vs2
      (hval v t vs1 hv (fun a ha => hagree a (List.mem_append_left _ ha)))
      (ih ts2 vs2 hrest (fun a ha => hagree a (List.mem_append_right _ ha)))

theorem dumpVal_agree {h h2 : Heap} :
    ∀ f v t vs, dumpVal h f v = some (t, vs) →
      (∀ a ∈ vs, h2.lookupObj a = h.lookupObj a) →
      dumpVal h2 f v = some (t, vs) := by
  intro f
  induction f with
  | zero =>
    intro v t vs hr _
    cases v with
    | leaf l =>
      obtain ⟨ht, hvs⟩ := Prod.mk.injEq _ _ _ _ ▸ dumpVal_leaf_inv h 0 l (t, vs) hr
      rw [ht, hvs]
      exact dumpVal_leaf h2 0 l
    | ref a0 => exact absurd (dumpVal_zero_ref_inv h a0 (t, vs) hr) not_false
  | succ f ih =>
    intro v t vs hr hagree
    cases v with
    | leaf l =>
      obtain ⟨ht, hvs⟩ :=
        Prod.mk.injEq _ _ _ _ ▸ dumpVal_leaf_inv h (f + 1) l (t, vs) hr
      rw [ht, hvs]
      exact dumpVal_leaf h2 (f + 1) l
    | ref a0 =>
      obtain ⟨o, ts, vso, hl, ho, hreq⟩ := dumpVal_ref_inv h f a0 (t, vs) hr
      obtain ⟨ht, hvs⟩ := Prod.mk.injEq _ _ _ _ ▸ hreq
      rw [ht, hvs]
      rw [hvs] at hagree
      have hl2 : h2.lookupObj a0 = some o := by
        rw [hagree a0 (List.mem_cons_self a0 vso)]
        exact hl
      exact dumpVal_ref_obj h2 f a0 o ts vso hl2
        (dumpObj_agree_of_val ih o ts vso ho
          (fun a ha => hagree a (List.mem_cons_of_mem a0 ha)))

theorem dumpObj_agree {h h2 : Heap} (f : Nat) :
    ∀ o ts vs, dumpObj h f o = some (ts, vs) →
      (∀ a ∈ vs, h2.lookupObj a = h.lookupObj a) →
      dumpObj h2 f o = some (ts, vs) :=
  dumpObj_agree_of_val (dumpVal_agree f)

/-! ### Allocation lemmas: `json.loads` builds a fresh, faithful region -/

/-- No dict is allocated at address `n` or beyond. -/
def HeapFresh (h : Heap) (n : Nat) : Prop :=
  ∀ a, n ≤ a → h.lookupObj a = none

theorem Heap.lookupObj_singleton (n : Addr) (o : JObj) (a : Addr) :
    Heap.lookupObj [(n, o)] a = if a = n then some o else none := by
  unfold Heap.lookupObj
  by_cases ha : n = a
  · rw [List.find?_cons_of_pos _ (by simp [ha])]
    simp [ha]
  · rw [List.find?_cons_of_neg _ (by simp [ha])]
    simp [List.find?_nil, Ne.symm ha]

theorem Heap.lookupObj_append_both_none {h h2 : Heap} {a : Addr}
    (h1 : h.lookupObj a = none) (hn2 : h2.lookupObj a = none) :
    Heap.lookupObj (h ++ h2) a = none := by
  rw [Heap.lookupObj_append_none h1 h2]
  exact hn2

theorem dumpVal_append_right {h : Heap} (h2 : Heap) (f : Nat) (v : JVal)
    (t : JTree) (vs : List Addr) (hd : dumpVal h f v = some (t, vs)) :
    dumpVal (h ++ h2) f v = some (t, vs) := by
  refine dumpVal_agree f v t vs hd (fun a ha => ?_)
  have hsome := dumpVal_visited h f v t vs hd a ha
  cases hl : h.lookupObj a with
  | none => rw [hl] at hsome; exact absurd hsome (by simp)
  | some o => exact Heap.lookupObj_append_left hl h2

theorem dumpObj_append_right {h : Heap} (h2 : Heap) (f : Nat) (o : JObj)
    (ts : List (String × JTree)) (vs : List Addr)
    (hd : dumpObj h f o = some (ts, vs)) :
    dumpObj (h ++ h2) f o = some (ts, vs) := by
  refine dumpObj_agree f o ts vs hd (fun a ha => ?_)
  have hsome := dumpObj_visited h f o ts vs hd a ha
  cases hl : h.lookupObj a with
  | none => rw [hl] at hsome; exact absurd hsome (by simp)
  | some ob => exact Heap.lookupObj_append_left hl h2

/-- Joint specification of `allocTree` / `allocFields` (`json.loads`):
the allocator moves the frontier forward, puts every fresh cell inside
`[n, n1)`, and — over any base heap with a free tail — the freshly
built value serializes back (`json.dumps`) to exactly the input tree,
visiting only fresh, pairwise distinct addresses. -/
theorem alloc_spec : ∀ (m : Nat),
    (∀ (t : JTree) (n : Nat) (v : JVal) (cells : Heap) (n1 : Nat),
      sizeOf t ≤ m → allocTree t n = (v, cells, n1) →
      n ≤ n1
      ∧ (∀ a, (a < n ∨ n1 ≤ a) → Heap.lookupObj cells a = none)
      ∧ ∀ (h : Heap), HeapFresh h n →
          ∃ F vs, dumpVal (h ++ cells) F v = some (t, vs) ∧ vs.Nodup
            ∧ (∀ a ∈ vs, n ≤ a ∧ a < n1))
    ∧ (∀ (fields : List (String × JTree)) (n : Nat) (fs : JObj) (cells : Heap)
        (n1 : Nat),
      sizeOf fields ≤ m → allocFields fields n = (fs, cells, n1) →
      n ≤ n1
      ∧ (∀ a, (a < n ∨ n1 ≤ a) → Heap.lookupObj cells a = none)
      ∧ ∀ (h : Heap), HeapFresh h n →
          ∃ F vs, dumpObj (h ++ cells) F fs = some (fields, vs) ∧ vs.Nodup
            ∧ (∀ a ∈ vs, n ≤ a ∧ a < n1)) := by
  intro m
  induction m using Nat.strong_induction_on with
  | _ m ih =>
    constructor
    · intro t n v cells n1 hsize halloc
      cases t with
      | leaf l =>
        rw [allocTree] at halloc
        obtain ⟨rfl, rfl, rfl⟩ : v = JVal.leaf l ∧ cells = ([] : Heap) ∧ n1 = n :=
          ⟨(congrArg (fun p => p.1) halloc).symm,
            (congrArg (fun p => p.2.1) halloc).symm,
            (congrArg (fun p => p.2.2) halloc).symm⟩
        refine ⟨le_refl _, fun a _ => by simp [Heap.lookupObj], fun h _ => ?_⟩
        refine ⟨0, [], ?_, List.nodup_nil, fun a ha => absurd ha (List.not_mem_nil a)⟩
        rw [List.append_nil]
        exact dumpVal_leaf h 0 l
      | obj fields =>
        rw [allocTree] at halloc
        cases hF : allocFields fields n with
        | mk fs rest =>
          obtain ⟨cellsF, nF⟩ := rest
          rw [hF] at halloc
          obtain ⟨rfl, rfl, rfl⟩ :
              v = JVal.ref nF ∧ cells = cellsF ++ [(nF, fs)] ∧ n1 = nF + 1 :=
            ⟨(congrArg (fun p => p.1) halloc).symm,
              (congrArg (fun p => p.2.1) halloc).symm,
              (congrArg (fun p => p.2.2) halloc).symm⟩
          have hsizeF : sizeOf fields < m := by
            have hlt : sizeOf fields < sizeOf (JTree.obj fields) := by
              simp only [JTree.obj.sizeOf_spec]
              omega
            omega
          obtain ⟨hle, hcellsF, hround⟩ :=
            (ih (sizeOf fields) hsizeF).2 fields n fs cellsF nF (le_refl _) hF
          refine ⟨by omega, ?_, ?_⟩
          · intro a haout
            refine Heap.lookupObj_append_both_none (hcellsF a (by omega)) ?_
            rw [Heap.lookupObj_singleton]
            have : a ≠ nF := by omega
            simp [this]
          · intro h hfresh
            obtain ⟨F, vs, hdump, hnodup, hrange⟩ := hround h hfresh
            have hassoc : h ++ (cellsF ++ [(nF, fs)]) = (h ++ cellsF) ++ [(nF, fs)] :=
              (List.append_assoc h cellsF [(nF, fs)]).symm
            have hlookup : Heap.lookupObj ((h ++ cellsF) ++ [(nF, fs)]) nF = some fs := by
              have hh : h.lookupObj nF = none := hfresh nF hle
              have hc : Heap.lookupObj cellsF nF = none := hcellsF nF (by omega)
              rw [Heap.lookupObj_append_none (Heap.lookupObj_append_both_none hh hc) _,
                Heap.lookupObj_singleton]
              simp
            have hdump2 : dumpObj ((h ++ cellsF) ++ [(nF, fs)]) F fs = some (fields, vs) :=
              dumpObj_append_right [(nF, fs)] F fs fields vs hdump
            refine ⟨F + 1, nF :: vs, ?_, ?_, ?_⟩
            · rw [hassoc]
              exact dumpVal_ref_obj _ F nF fs fields vs hlookup hdump2
            · refine List.nodup_cons.mpr ⟨fun hmem => ?_, hnodup⟩
              exact absurd ((hrange nF hmem).2) (lt_irrefl nF)
            · intro a ha
              rcases List.mem_cons.mp ha with rfl | htail
              · exact ⟨hle, Nat.lt_succ_self _⟩
              · obtain ⟨h1, h2⟩ := hrange a htail
                exact ⟨h1, Nat.lt_succ_of_lt h2⟩
    · intro fields n fs cells n1 hsize halloc
      cases fields with
      | nil =>
        rw [allocFields] at halloc
        obtain ⟨rfl, rfl, rfl⟩ : fs = ([] : JObj) ∧ cells = ([] : Heap) ∧ n1 = n :=
          ⟨(congrArg (fun p => p.1) halloc).symm,
            (congrArg (fun p => p.2.1) halloc).symm,
            (congrArg (fun p => p.2.2) halloc).symm⟩
        refine ⟨le_refl _, fun a _ => by simp [Heap.lookupObj], fun h _ => ?_⟩
        refine ⟨0, [], ?_, List.nodup_nil, fun a ha => absurd ha (List.not_mem_nil a)⟩
        rw [List.append_nil]
        exact dumpObj_nil h 0
      | cons kt rest =>
        obtain ⟨k, t⟩ := kt
        cases hT : allocTree t n with
        | mk v restT =>
          obtain ⟨cells1, na⟩ := restT
          cases hR : allocFields rest na with
          | mk fs2 restR =>
            obtain ⟨cells2, n2⟩ := restR
            have hcomp : allocFields ((k, t) :: rest) n
                = ((k, v) :: fs2, cells1 ++ cells2, n2) := by
              rw [allocFields, hT]
              show (match allocFields rest na with
                | (fs3, cells3, n3) => ((k, v) :: fs3, cells1 ++ cells3, n3)) = _
              rw [hR]
            rw [halloc] at hcomp
            obtain ⟨rfl, rfl, rfl⟩ :
                fs = (k, v) :: fs2 ∧ cells = cells1 ++ cells2 ∧ n1 = n2 :=
              ⟨congrArg (fun p => p.1) hcomp,
                congrArg (fun p => p.2.1) hcomp,
                congrArg (fun p => p.2.2) hcomp⟩
            have hsizeT : sizeOf t < m := by
              have hlt : sizeOf t < sizeOf ((k, t) :: rest) := by
                simp only [List.cons.sizeOf_spec, Prod.mk.sizeOf_spec]
                omega
              omega
            have hsizeR : sizeOf rest < m := by
              have hlt : sizeOf rest < sizeOf ((k, t) :: rest) := by
                simp only [List.cons.sizeOf_spec, Prod.mk.sizeOf_spec]
                omega
              omega
            obtain ⟨hle1, hcells1, hround1⟩ :=
              (ih (sizeOf t) hsizeT).1 t n v cells1 na (le_refl _) hT
            obtain ⟨hle2, hcells2, hround2⟩ :=
              (ih (sizeOf rest) hsizeR).2 rest na fs2 cells2 n1 (le_refl _) hR
            refine ⟨by omega, ?_, ?_⟩
            · intro a haout
              exact Heap.lookupObj_append_both_none
                (hcells1 a (by omega)) (hcells2 a (by omega))
            · intro h hfresh
              obtain ⟨F1, vs1, hdump1, hnd1, hrange1⟩ := hround1 h hfresh
              have hfresh2 : HeapFresh (h ++ cells1) na := by
                intro a ha
                exact Heap.lookupObj_append_both_none
                  (hfresh a (by omega)) (hcells1 a (by omega))
              obtain ⟨F2, vs2, hdump2, hnd2, hrange2⟩ := hround2 (h ++ cells1) hfresh2
              have hassoc : h ++ (cells1 ++ cells2) = (h ++ cells1) ++ cells2 :=
                (List.append_assoc h cells1 cells2).symm
              have hdump1b :
                  dumpVal ((h ++ cells1) ++ cells2) F1 v = some (t, vs1) :=
                dumpVal_append_right cells2 F1 v t vs1 hdump1
              refine ⟨max F1 F2, vs1 ++ vs2, ?_, ?_, ?_⟩
              · rw [hassoc]
                exact dumpObj_cons_eq _ (max F1 F2) k v fs2 t vs1 rest vs2
                  (dumpVal_mono _ (le_max_left F1 F2) v (t, vs1) hdump1b)
                  (dumpObj_mono _ (le_max_right F1 F2) fs2 (rest, vs2) hdump2)
              · refine List.Nodup.append hnd1 hnd2 (fun a ha1 ha2 => ?_)
                have h1 := hrange1 a ha1
                have h2 := hrange2 a ha2
                exact absurd (lt_of_lt_of_le h1.2 h2.1) (lt_irrefl a)
              · intro a ha
                rcases List.mem_append.mp ha with h1 | h2
                · obtain ⟨ha1, ha2⟩ := hrange1 a h1
                  exact ⟨ha1, lt_of_lt_of_le ha2 hle2⟩
                · obtain ⟨ha1, ha2⟩ := hrange2 a h2
                  exact ⟨le_trans hle1 ha1, ha2⟩

/-! ### Field lookup correspondence between heap and serialized form -/

theorem findField_cons (k0 : String) (v0 : JVal) (rest : JObj) (k : String) :
    findField ((k0, v0) :: rest) k
      = if k0 = k then some v0 else findField rest k := by
  unfold findField
  by_cases h : k0 = k
  · rw [List.find?_cons_of_pos _ (by simp [h]), if_pos h]
    rfl
  · rw [List.find?_cons_of_neg _ (by simp [h]), if_neg h]

theorem findTreeField_cons (k0 : String) (t0 : JTree)
    (rest : List (String × JTree)) (k : String) :
    findTreeField ((k0, t0) :: rest) k
      = if k0 = k then some t0 else findTreeField rest k := by
  unfold findTreeField
  by_cases h : k0 = k
  · rw [List.find?_cons_of_pos _ (by simp [h]), if_pos h]
    rfl
  · rw [List.find?_cons_of_neg _ (by simp [h]), if_neg h]

theorem findField_nil (k : String) : findField ([] : JObj) k = none := rfl

theorem findTreeField_nil (k : String) :
    findTreeField ([] : List (String × JTree)) k = none := rfl

theorem dumpObj_findField_some (h : Heap) (f : Nat) :
    ∀ (o : JObj) (ts : List (String × JTree)) (vs : List Addr) (k : String)
      (v1 : JVal), dumpObj h f o = some (ts, vs) → findField o k = some v1 →
      ∃ t1 vs1, findTreeField ts k = some t1 ∧ dumpVal h f v1 = some (t1, vs1)
        ∧ vs1.Sublist vs := by
  intro o
  induction o with
  | nil =>
    intro ts vs k v1 hd hf
    rw [findField_nil] at hf
    exact absurd hf (by simp)
  | cons kv rest ih =>
    intro ts vs k v1 hd hf
    obtain ⟨k0, v0⟩ := kv
    obtain ⟨t0, vsA, ts2, vsB, hv0, hrest, hreq⟩ :=
      dumpObj_cons_inv h f k0 v0 rest (ts, vs) hd
    obtain ⟨hts, hvs⟩ := Prod.mk.injEq _ _ _ _ ▸ hreq
    rw [hts, hvs]
    rw [findField_cons] at hf
    by_cases hk : k0 = k
    · rw [if_pos hk] at hf
      rw [findTreeField_cons, if_pos hk]
      exact ⟨t0, vsA, rfl, (Option.some.inj hf) ▸ hv0,
        List.sublist_append_left vsA vsB⟩
    · rw [if_neg hk] at hf
      obtain ⟨t1, vs1, hft, hdv, hsub⟩ := ih ts2 vsB k v1 hrest hf
      rw [findTreeField_cons, if_neg hk]
      exact ⟨t1, vs1, hft, hdv, hsub.trans (List.sublist_append_right vsA vsB)⟩

theorem dumpObj_findField_none (h : Heap) (f : Nat) :
    ∀ (o : JObj) (ts : List (String × JTree)) (vs : List Addr) (k : String),
      dumpObj h f o = some (ts, vs) → findField o k = none →
      findTreeField ts k = none := by
  intro o
  induction o with
  | nil =>
    intro ts vs k hd _
    obtain ⟨hts, -⟩ := Prod.mk.injEq _ _ _ _ ▸ dumpObj_nil_inv h f (ts, vs) hd
    rw [hts]
    exact findTreeField_nil k
  | cons kv rest ih =>
    intro ts vs k hd hf
    obtain ⟨k0, v0⟩ := kv
    obtain ⟨t0, vsA, ts2, vsB, hv0, hrest, hreq⟩ :=
      dumpObj_cons_inv h f k0 v0 rest (ts, vs) hd
    obtain ⟨hts, -⟩ := Prod.mk.injEq _ _ _ _ ▸ hreq
    rw [hts]
    rw [findField_cons] at hf
    rw [findTreeField_cons]
    by_cases hk : k0 = k
    · rw [if_pos hk] at hf
      exact absurd hf (by simp)
    · rw [if_neg hk] at hf
      rw [if_neg hk]
      exact ih ts2 vsB k hrest hf

theorem dumpObj_findTreeField_some (h : Heap) (f : Nat) :
    ∀ (o : JObj) (ts : List (String × JTree)) (vs : List Addr) (k : String)
      (t1 : JTree), dumpObj h f o = some (ts, vs) → findTreeField ts k = some t1 →
      ∃ v1 vs1, findField o k = some v1 ∧ dumpVal h f v1 = some (t1, vs1)
        ∧ vs1.Sublist vs := by
  intro o
  induction o with
  | nil =>
    intro ts vs k t1 hd hf
    obtain ⟨hts, -⟩ := Prod.mk.injEq _ _ _ _ ▸ dumpObj_nil_inv h f (ts, vs) hd
    rw [hts, findTreeField_nil] at hf
    exact absurd hf (by simp)
  | cons kv rest ih =>
    intro ts vs k t1 hd hf
    obtain ⟨k0, v0⟩ := kv
    obtain ⟨t0, vsA, ts2, vsB, hv0, hrest, hreq⟩ :=
      dumpObj_cons_inv h f k0 v0 rest (ts, vs) hd
    obtain ⟨hts, hvs⟩ := Prod.mk.injEq _ _ _ _ ▸ hreq
    rw [hts, findTreeField_cons] at hf
    rw [hvs]
    rw [findField_cons]
    by_cases hk : k0 = k
    · rw [if_pos hk] at hf
      rw [if_pos hk]
      exact ⟨v0, vsA, rfl, (Option.some.inj hf) ▸ hv0,
        List.sublist_append_left vsA vsB⟩
    · rw [if_neg hk] at hf
      rw [if_neg hk]
      obtain ⟨v1, vs1, hfo, hdv, hsub⟩ := ih ts2 vsB k t1 hrest hf
      exact ⟨v1, vs1, hfo, hdv, hsub.trans (List.sublist_append_right vsA vsB)⟩

/-- Reading a field of a dict reference corresponds to reading the same
field of its serialized form; the field's own serialization visits a
suffix part of the parent's visited addresses. -/
theorem getFieldVal_correspond_some (h : Heap) (f : Nat) (v : JVal) (t : JTree)
    (vs : List Addr) (k : String) (v1 : JVal)
    (hd : dumpVal h f v = some (t, vs)) (hg : getFieldVal h v k = some v1) :
    ∃ t1 vs1, treeGet t k = some t1 ∧ dumpVal h f v1 = some (t1, vs1)
      ∧ vs1.Sublist vs ∧ vs1.Sublist (vs.drop 1) := by
  cases v with
  | leaf l => exact absurd hg (by rw [getFieldVal]; simp)
  | ref a =>
    cases f with
    | zero => exact absurd (dumpVal_zero_ref_inv h a (t, vs) hd) not_false
    | succ f0 =>
      obtain ⟨o, ts, vso, hl, ho, hreq⟩ := dumpVal_ref_inv h f0 a (t, vs) hd
      obtain ⟨ht, hvs⟩ := Prod.mk.injEq _ _ _ _ ▸ hreq
      rw [getFieldVal, hl] at hg
      obtain ⟨t1, vs1, hft, hdv, hsub⟩ :=
        dumpObj_findField_some h f0 o ts vso k v1 ho hg
      refine ⟨t1, vs1, ?_, dumpVal_mono_succ h f0 v1 (t1, vs1) hdv, ?_, ?_⟩
      · rw [ht, treeGet]
        exact hft
      · rw [hvs]
        exact hsub.trans ((List.sublist_cons_self a vso).trans (by rfl))
      · rw [hvs]
        exact hsub

theorem getFieldVal_correspond_none (h : Heap) (f : Nat) (v : JVal) (t : JTree)
    (vs : List Addr) (k : String)
    (hd : dumpVal h f v = some (t, vs)) (hg : getFieldVal h v k = none) :
    treeGet t k = none := by
  cases v with
  | leaf l =>
    obtain ⟨ht, -⟩ := Prod.mk.injEq _ _ _ _ ▸ dumpVal_leaf_inv h f l (t, vs) hd
    rw [ht, treeGet]
  | ref a =>
    cases f with
    | zero => exact absurd (dumpVal_zero_ref_inv h a (t, vs) hd) not_false
    | succ f0 =>
      obtain ⟨o, ts, vso, hl, ho, hreq⟩ := dumpVal_ref_inv h f0 a (t, vs) hd
      obtain ⟨ht, -⟩ := Prod.mk.injEq _ _ _ _ ▸ hreq
      rw [getFieldVal, hl] at hg
      rw [ht, treeGet]
      exact dumpObj_findField_none h f0 o ts vso k ho hg

theorem treeGet_correspond_some (h : Heap) (f : Nat) (v : JVal) (t : JTree)
    (vs : List Addr) (k : String) (t1 : JTree)
    (hd : dumpVal h f v = some (t, vs)) (hg : treeGet t k = some t1) :
    ∃ v1 vs1, getFieldVal h v k = some v1 ∧ dumpVal h f v1 = some (t1, vs1)
      ∧ vs1.Sublist vs := by
  cases v with
  | leaf l =>
    obtain ⟨ht, -⟩ := Prod.mk.injEq _ _ _ _ ▸ dumpVal_leaf_inv h f l (t, vs) hd
    rw [ht, treeGet] at hg
    exact absurd hg (by simp)
  | ref a =>
    cases f with
    | zero => exact absurd (dumpVal_zero_ref_inv h a (t, vs) hd) not_false
    | succ f0 =>
      obtain ⟨o, ts, vso, hl, ho, hreq⟩ := dumpVal_ref_inv h f0 a (t, vs) hd
      obtain ⟨ht, hvs⟩ := Prod.mk.injEq _ _ _ _ ▸ hreq
      rw [ht, treeGet] at hg
      obtain ⟨v1, vs1, hfo, hdv, hsub⟩ :=
        dumpObj_findTreeField_some h f0 o ts vso k t1 ho hg
      refine ⟨v1, vs1, ?_, dumpVal_mono_succ h f0 v1 (t1, vs1) hdv, ?_⟩
      · rw [getFieldVal, hl]
        exact hfo
      · rw [hvs]
        exact hsub.trans (List.sublist_cons_self a vso)

/-- The membership tests `k in d` agree between a dict reference and
its serialized form. -/
theorem getFieldVal_isSome_correspond (h : Heap) (f : Nat) (v : JVal)
    (t : JTree) (vs : List Addr) (k : String)
    (hd : dumpVal h f v = some (t, vs)) :
    (getFieldVal h v k).isSome = (treeGet t k).isSome := by
  cases hg : getFieldVal h v k with
  | some v1 =>
    obtain ⟨t1, vs1, hft, -, -⟩ := getFieldVal_correspond_some h f v t vs k v1 hd hg
    rw [hft]
    rfl
  | none =>
    rw [getFieldVal_correspond_none h f v t vs k hd hg]
    rfl

/-! ### In-place update lemmas -/

theorem dumpObj_keys (h : Heap) (f : Nat) :
    ∀ (o : JObj) (ts : List (String × JTree)) (vs : List Addr),
      dumpObj h f o = some (ts, vs) → ts.map Prod.fst = o.map Prod.fst := by
  intro o
  induction o with
  | nil =>
    intro ts vs hd
    obtain ⟨hts, -⟩ := Prod.mk.injEq _ _ _ _ ▸ dumpObj_nil_inv h f (ts, vs) hd
    rw [hts]
    rfl
  | cons kv rest ih =>
    intro ts vs hd
    obtain ⟨k0, v0⟩ := kv
    obtain ⟨t0, vsA, ts2, vsB, hv0, hrest, hreq⟩ :=
      dumpObj_cons_inv h f k0 v0 rest (ts, vs) hd
    obtain ⟨hts, -⟩ := Prod.mk.injEq _ _ _ _ ▸ hreq
    rw [hts, List.map_cons, List.map_cons, ih ts2 vsB hrest]

theorem dumpObj_replace_leaf (h : Heap) (f : Nat) (k : String) (l : JLeaf) :
    ∀ (o : JObj) (ts : List (String × JTree)) (vs : List Addr),
      dumpObj h f o = some (ts, vs) →
      ∃ vs2, dumpObj h f (o.map (fun p => if p.1 = k then (k, JVal.leaf l) else p))
          = some (ts.map (fun p => if p.1 = k then (k, JTree.leaf l) else p), vs2)
        ∧ vs2.Sublist vs := by
  intro o
  induction o with
  | nil =>
    intro ts vs hd
    obtain ⟨hts, hvs⟩ := Prod.mk.injEq _ _ _ _ ▸ dumpObj_nil_inv h f (ts, vs) hd
    rw [hts, hvs]
    exact ⟨[], dumpObj_nil h f, List.Sublist.refl []⟩
  | cons kv rest ih =>
    intro ts vs hd
    obtain ⟨k0, v0⟩ := kv
    obtain ⟨t0, vsA, ts2, vsB, hv0, hrest, hreq⟩ :=
      dumpObj_cons_inv h f k0 v0 rest (ts, vs) hd
    obtain ⟨hts, hvs⟩ := Prod.mk.injEq _ _ _ _ ▸ hreq
    rw [hts, hvs]
    obtain ⟨vs2, hdrest, hsub⟩ := ih ts2 vsB hrest
    by_cases hk : k0 = k
    · refine ⟨[] ++ vs2, ?_, ?_⟩
      · rw [List.map_cons, List.map_cons, if_pos (by simp [hk]), if_pos (by simp [hk])]
        exact dumpObj_cons_eq h f k (JVal.leaf l) _ (JTree.leaf l) [] _ vs2
          (dumpVal_leaf h f l) hdrest
      · rw [List.nil_append]
        exact hsub.trans (List.sublist_append_right vsA vsB)
    · refine ⟨vsA ++ vs2, ?_, ?_⟩
      · rw [List.map_cons, List.map_cons, if_neg (by simp [hk]), if_neg (by simp [hk])]
        exact dumpObj_cons_eq h f k0 v0 _ t0 vsA _ vs2 hv0 hdrest
      · exact List.Sublist.append (List.Sublist.refl vsA) hsub

theorem dumpObj_append_leaf (h : Heap) (f : Nat) (k : String) (l : JLeaf) :
    ∀ (o : JObj) (ts : List (String × JTree)) (vs : List Addr),
      dumpObj h f o = some (ts, vs) →
      dumpObj h f (o ++ [(k, JVal.leaf l)])
        = some (ts ++ [(k, JTree.leaf l)], vs) := by
  intro o
  induction o with
  | nil =>
    intro ts vs hd
    obtain ⟨hts, hvs⟩ := Prod.mk.injEq _ _ _ _ ▸ dumpObj_nil_inv h f (ts, vs) hd
    rw [hts, hvs, List.nil_append, List.nil_append]
    have h1 := dumpObj_cons_eq h f k (JVal.leaf l) [] (JTree.leaf l) [] [] []
      (dumpVal_leaf h f l) (dumpObj_nil h f)
    simpa using h1
  | cons kv rest ih =>
    intro ts vs hd
    obtain ⟨k0, v0⟩ := kv
    obtain ⟨t0, vsA, ts2, vsB, hv0, hrest, hreq⟩ :=
      dumpObj_cons_inv h f k0 v0 rest (ts, vs) hd
    obtain ⟨hts, hvs⟩ := Prod.mk.injEq _ _ _ _ ▸ hreq
    rw [hts, hvs, List.cons_append, List.cons_append]
    exact dumpObj_cons_eq h f k0 v0 _ t0 vsA _ vsB hv0 (ih ts2 vsB hrest)

theorem keys_any_eq :
    ∀ (ts : List (String × JTree)) (o : JObj) (k : String),
      ts.map Prod.fst = o.map Prod.fst →
      (ts.any (fun p => p.1 = k)) = (o.any (fun p => p.1 = k)) := by
  intro ts
  induction ts with
  | nil =>
    intro o k hmap
    cases o with
    | nil => rfl
    | cons b r2 => exact absurd hmap (by simp)
  | cons a rest ih =>
    intro o k hmap
    cases o with
    | nil => exact absurd hmap (by simp)
    | cons b r2 =>
      simp only [List.map_cons, List.cons.injEq] at hmap
      obtain ⟨h1, h2⟩ := hmap
      simp only [List.any_cons, h1, ih r2 k h2]

/-- Serializing a dict after `d[k] = leaf` yields the serialized dict
with the tree-level assignment applied; no new addresses are visited. -/
theorem dumpObj_setKey_leaf (h : Heap) (f : Nat) (k : String) (l : JLeaf)
    (o : JObj) (ts : List (String × JTree)) (vs : List Addr)
    (hd : dumpObj h f o = some (ts, vs)) :
    ∃ vs2, dumpObj h f (JObj.setKey o k (.leaf l))
        = some (setKeyTree ts k (.leaf l), vs2) ∧ vs2.Sublist vs := by
  have hkeys := dumpObj_keys h f o ts vs hd
  have hany : (ts.any (fun p => p.1 = k)) = (o.any (fun p => p.1 = k)) :=
    keys_any_eq ts o k hkeys
  unfold JObj.setKey setKeyTree
  by_cases ho : o.any (fun p => p.1 = k)
  · rw [if_pos ho, if_pos (by rw [hany]; exact ho)]
    exact dumpObj_replace_leaf h f k l o ts vs hd
  · rw [if_neg ho, if_neg (by rw [hany]; exact ho)]
    exact ⟨vs, dumpObj_append_leaf h f k l o ts vs hd, List.Sublist.refl vs⟩

theorem updFirstField_cons_pos (k0 : String) (t0 : JTree)
    (rest : List (String × JTree)) (k : String) (newT : JTree) (hk : k0 = k) :
    updFirstField ((k0, t0) :: rest) k newT = (k0, newT) :: rest := by
  rw [updFirstField, if_pos hk]

theorem updFirstField_cons_neg (k0 : String) (t0 : JTree)
    (rest : List (String × JTree)) (k : String) (newT : JTree) (hk : ¬ k0 = k) :
    updFirstField ((k0, t0) :: rest) k newT
      = (k0, t0) :: updFirstField rest k newT := by
  rw [updFirstField, if_neg hk]

/-- Re-serializing a dict after an in-place update at address `a2`,
where `a2` lies inside the (duplicate-free) region of the first field
with key `k`: only that field's subtree changes. -/
theorem dumpObj_update_first (h h2 : Heap) (f : Nat) (a2 : Addr)
    (hchange : ∀ a, a ≠ a2 → h2.lookupObj a = h.lookupObj a) :
    ∀ (o : JObj) (ts : List (String × JTree)) (vs : List Addr) (k : String)
      (v1 : JVal) (t1 t1New : JTree) (vs1 vs1New : List Addr),
      dumpObj h f o = some (ts, vs) → vs.Nodup →
      findField o k = some v1 → dumpVal h f v1 = some (t1, vs1) →
      a2 ∈ vs1 →
      dumpVal h2 f v1 = some (t1New, vs1New) → vs1New.Sublist vs1 →
      ∃ vs2, dumpObj h2 f o = some (updFirstField ts k t1New, vs2)
        ∧ vs2.Sublist vs := by
  intro o
  induction o with
  | nil =>
    intro ts vs k v1 t1 t1New vs1 vs1New hd hnd hf hdv ha2 hdv2 hsub1
    rw [findField_nil] at hf
    exact absurd hf (by simp)
  | cons kv rest ih =>
    intro ts vs k v1 t1 t1New vs1 vs1New hd hnd hf hdv ha2 hdv2 hsub1
    obtain ⟨k0, v0⟩ := kv
    obtain ⟨t0, vsA, ts2, vsB, hv0, hrest, hreq⟩ :=
      dumpObj_cons_inv h f k0 v0 rest (ts, vs) hd
    obtain ⟨hts, hvs⟩ := Prod.mk.injEq _ _ _ _ ▸ hreq
    rw [hvs] at hnd
    obtain ⟨hndA, hndB, hdisj⟩ := List.nodup_append.mp hnd
    rw [findField_cons] at hf
    by_cases hk : k0 = k
    · rw [if_pos hk] at hf
      have hv1 : v1 = v0 := (Option.some.inj hf).symm
      rw [hv1] at hdv hdv2
      obtain ⟨ht1, hvs1⟩ :=
        Prod.mk.injEq _ _ _ _ ▸ Option.some.inj (hv0.symm.trans hdv)
      rw [← hvs1] at ha2 hsub1
      have hrest2 : dumpObj h2 f rest = some (ts2, vsB) := by
        refine dumpObj_agree f rest ts2 vsB hrest (fun a ha => ?_)
        refine hchange a (fun haeq => ?_)
        rw [haeq] at ha
        exact hdisj ha2 ha
      refine ⟨vs1New ++ vsB, ?_, ?_⟩
      · rw [hts, updFirstField_cons_pos k0 t0 ts2 k t1New hk]
        exact dumpObj_cons_eq h2 f k0 v0 rest t1New vs1New ts2 vsB hdv2 hrest2
      · rw [hvs]
        exact List.Sublist.append hsub1 (List.Sublist.refl vsB)
    · rw [if_neg hk] at hf
      obtain ⟨t1b, vs1b, hftb, hdvb, hsubb⟩ :=
        dumpObj_findField_some h f rest ts2 vsB k v1 hrest hf
      obtain ⟨ht1b, hvs1b⟩ :=
        Prod.mk.injEq _ _ _ _ ▸ Option.some.inj (hdvb.symm.trans hdv)
      rw [hvs1b] at hsubb
      have ha2B : a2 ∈ vsB := hsubb.mem ha2
      have hv02 : dumpVal h2 f v0 = some (t0, vsA) := by
        refine dumpVal_agree f v0 t0 vsA hv0 (fun a ha => ?_)
        refine hchange a (fun haeq => ?_)
        rw [haeq] at ha
        exact hdisj ha ha2B
      obtain ⟨vs2, hdrest, hsub2⟩ := ih ts2 vsB k v1 t1 t1New vs1 vs1New
        hrest hndB hf hdv ha2 hdv2 hsub1
      refine ⟨vsA ++ vs2, ?_, ?_⟩
      · rw [hts, updFirstField_cons_neg k0 t0 ts2 k t1New hk]
        exact dumpObj_cons_eq h2 f k0 v0 rest t0 vsA _ vs2 hv02 hdrest
      · rw [hvs]
        exact List.Sublist.append (List.Sublist.refl vsA) hsub2

/-- The central correspondence: the triple-subscript assignment
`root[k1][k2][k3] = leaf` on the heap serializes to the tree-level
assignment; it visits no new addresses and touches no dict outside the
document's region. -/
theorem setPath2_correspond (h : Heap) (f : Nat) (v : JVal) (t : JTree)
    (vs : List Addr) (k1 k2 k3 : String) (l : JLeaf) (hres : Heap)
    (hd : dumpVal h f v = some (t, vs)) (hnd : vs.Nodup)
    (hset : setPath2 h v k1 k2 k3 (.leaf l) = some hres) :
    ∃ t2 vs2, treeSetPath2 t k1 k2 k3 (.leaf l) = some t2
      ∧ dumpVal hres f v = some (t2, vs2) ∧ vs2.Sublist vs
      ∧ (∀ a, a ∉ vs → hres.lookupObj a = h.lookupObj a) := by
  rw [setPath2] at hset
  split at hset
  · exact absurd hset (by simp)
  rename_i v1 hg1
  split at hset
  · exact absurd hset (by simp)
  rename_i v2 hg2
  -- the target of the assignment must be a dict reference present on the heap
  cases v2 with
  | leaf l2 => rw [setFieldAt] at hset; exact absurd hset (by simp)
  | ref a2 =>
    rw [setFieldAt] at hset
    split at hset
    · rename_i o2 hl2
      have hres_eq : hres = h.setObj a2 (JObj.setKey o2 k3 (.leaf l)) :=
        (Option.some.inj hset).symm
      -- decompose the root dump
      cases v with
      | leaf l0 => exact absurd hg1 (by rw [getFieldVal]; simp)
      | ref a0 =>
        cases f with
        | zero => exact absurd (dumpVal_zero_ref_inv h a0 (t, vs) hd) not_false
        | succ f0 =>
          obtain ⟨o0, ts0, vs0, hl0, ho0, hreq0⟩ := dumpVal_ref_inv h f0 a0 (t, vs) hd
          obtain ⟨ht0, hvs0⟩ := Prod.mk.injEq _ _ _ _ ▸ hreq0
          rw [hvs0] at hnd
          obtain ⟨ha0nmem, hnd0⟩ := List.nodup_cons.mp hnd
          have hg1o : findField o0 k1 = some v1 := by
            rw [getFieldVal, hl0] at hg1
            exact hg1
          obtain ⟨t1, vs1, hft1, hdv1, hsubv1⟩ :=
            dumpObj_findField_some h f0 o0 ts0 vs0 k1 v1 ho0 hg1o
          -- v1 must itself be a dict reference
          cases v1 with
          | leaf l1 => exact absurd hg2 (by rw [getFieldVal]; simp)
          | ref a1 =>
            cases f0 with
            | zero => exact absurd (dumpVal_zero_ref_inv h a1 (t1, vs1) hdv1) not_false
            | succ f1 =>
              obtain ⟨o1, ts1, vs1p, hl1, ho1, hreq1⟩ :=
                dumpVal_ref_inv h f1 a1 (t1, vs1) hdv1
              obtain ⟨ht1, hvs1⟩ := Prod.mk.injEq _ _ _ _ ▸ hreq1
              have hnd1 : vs1.Nodup := hsubv1.nodup hnd0
              rw [hvs1] at hnd1
              obtain ⟨ha1nmem, hnd1p⟩ := List.nodup_cons.mp hnd1
              have hg2o : findField o1 k2 = some (JVal.ref a2) := by
                rw [getFieldVal, hl1] at hg2
                exact hg2
              obtain ⟨t2a, vs2a, hft2, hdv2, hsubv2⟩ :=
                dumpObj_findField_some h f1 o1 ts1 vs1p k2 (JVal.ref a2) ho1 hg2o
              cases f1 with
              | zero =>
                exact absurd (dumpVal_zero_ref_inv h a2 (t2a, vs2a) hdv2) not_false
              | succ f2 =>
                obtain ⟨o2b, ts2, vs2p, hl2b, ho2, hreq2⟩ :=
                  dumpVal_ref_inv h f2 a2 (t2a, vs2a) hdv2
                obtain ⟨ht2, hvs2⟩ := Prod.mk.injEq _ _ _ _ ▸ hreq2
                have ho2eq : o2b = o2 := by
                  have := hl2b.symm.trans hl2
                  exact Option.some.inj this
                rw [ho2eq] at ho2
                have hnd2 : vs2a.Nodup := hsubv2.nodup hnd1p
                rw [hvs2] at hnd2
                obtain ⟨ha2nmem, hnd2p⟩ := List.nodup_cons.mp hnd2
                -- the updated heap and its lookups
                have hchange : ∀ a, a ≠ a2 →
                    Heap.lookupObj (h.setObj a2 (JObj.setKey o2 k3 (.leaf l))) a
                      = h.lookupObj a :=
                  fun a ha => Heap.setObj_lookup_other ha _
                have hself :
                    Heap.lookupObj (h.setObj a2 (JObj.setKey o2 k3 (.leaf l))) a2
                      = some (JObj.setKey o2 k3 (.leaf l)) :=
                  Heap.setObj_lookup_self hl2 _
                -- step 1: the innermost dict after the assignment
                obtain ⟨w2, hw2dump, hw2sub⟩ := dumpObj_setKey_leaf h f2 k3 l o2 ts2 vs2p ho2
                have hw2dump2 : dumpObj (h.setObj a2 (JObj.setKey o2 k3 (.leaf l))) f2
                    (JObj.setKey o2 k3 (.leaf l))
                    = some (setKeyTree ts2 k3 (.leaf l), w2) := by
                  refine dumpObj_agree f2 _ _ w2 hw2dump (fun a ha => ?_)
                  refine hchange a (fun haeq => ?_)
                  rw [haeq] at ha
                  exact ha2nmem (hw2sub.mem ha)
                have hstep1 : dumpVal (h.setObj a2 (JObj.setKey o2 k3 (.leaf l)))
                    (f2 + 1) (.ref a2)
                    = some (.obj (setKeyTree ts2 k3 (.leaf l)), a2 :: w2) :=
                  dumpVal_ref_obj _ f2 a2 _ _ w2 hself hw2dump2
                -- step 2: the middle dict, updated along its first `k2` field
                obtain ⟨w1, hw1dump, hw1sub⟩ :=
                  dumpObj_update_first h _ (f2 + 1) a2 hchange o1 ts1 vs1p k2
                    (JVal.ref a2) t2a (.obj (setKeyTree ts2 k3 (.leaf l)))
                    vs2a (a2 :: w2) ho1 hnd1p hg2o hdv2
                    (by rw [hvs2]; exact List.mem_cons_self a2 vs2p)
                    hstep1 (by rw [hvs2]; exact hw2sub.cons₂ a2)
                have ha1ne : a1 ≠ a2 := by
                  intro haeq
                  apply ha1nmem
                  rw [haeq]
                  exact hsubv2.mem (by rw [hvs2]; exact List.mem_cons_self a2 vs2p)
                have hl1b : Heap.lookupObj (h.setObj a2 (JObj.setKey o2 k3 (.leaf l))) a1
                    = some o1 := by
                  rw [hchange a1 ha1ne]
                  exact hl1
                have hstep2 : dumpVal (h.setObj a2 (JObj.setKey o2 k3 (.leaf l)))
                    (f2 + 2) (.ref a1)
                    = some (.obj (updFirstField ts1 k2
                        (.obj (setKeyTree ts2 k3 (.leaf l)))), a1 :: w1) :=
                  dumpVal_ref_obj _ (f2 + 1) a1 _ _ w1 hl1b hw1dump
                -- step 3: the root dict, updated along its first `k1` field
                have ha2mem1 : a2 ∈ vs1 := by
                  rw [hvs1]
                  exact List.mem_cons_of_mem a1
                    (hsubv2.mem (by rw [hvs2]; exact List.mem_cons_self a2 vs2p))
                obtain ⟨w0, hw0dump, hw0sub⟩ :=
                  dumpObj_update_first h _ (f2 + 2) a2 hchange o0 ts0 vs0 k1
                    (JVal.ref a1) t1 (.obj (updFirstField ts1 k2
                      (.obj (setKeyTree ts2 k3 (.leaf l)))))
                    vs1 (a1 :: w1) ho0 hnd0 hg1o hdv1 ha2mem1
                    hstep2 (by rw [hvs1]; exact hw1sub.cons₂ a1)
                have ha0ne : a0 ≠ a2 := by
                  intro haeq
                  apply ha0nmem
                  rw [haeq]
                  exact hsubv1.mem ha2mem1
                have hl0b : Heap.lookupObj (h.setObj a2 (JObj.setKey o2 k3 (.leaf l))) a0
                    = some o0 := by
                  rw [hchange a0 ha0ne]
                  exact hl0
                have hstep3 : dumpVal (h.setObj a2 (JObj.setKey o2 k3 (.leaf l)))
                    (f2 + 3) (.ref a0)
                    = some (.obj (updFirstField ts0 k1 (.obj (updFirstField ts1 k2
                        (.obj (setKeyTree ts2 k3 (.leaf l)))))), a0 :: w0) :=
                  dumpVal_ref_obj _ (f2 + 2) a0 _ _ w0 hl0b hw0dump
                -- assemble
                refine ⟨.obj (updFirstField ts0 k1 (.obj (updFirstField ts1 k2
                    (.obj (setKeyTree ts2 k3 (.leaf l)))))), a0 :: w0, ?_, ?_, ?_, ?_⟩
                · rw [ht1] at hft1
                  rw [ht2] at hft2
                  rw [ht0, treeSetPath2, hft1]
                  show (match findTreeField ts1 k2 with
                    | none => none
                    | some t2 =>
                      match t2 with
                      | JTree.leaf _ => none
                      | JTree.obj fields2 =>
                        some (JTree.obj (updFirstField ts0 k1
                          (JTree.obj (updFirstField ts1 k2
                            (JTree.obj (setKeyTree fields2 k3 (JTree.leaf l))))))) :
                      Option JTree)
                    = some (JTree.obj (updFirstField ts0 k1
                        (JTree.obj (updFirstField ts1 k2
                          (JTree.obj (setKeyTree ts2 k3 (JTree.leaf l)))))))
                  rw [hft2]
                · rw [hres_eq]
                  exact hstep3
                · rw [hvs0]
                  exact hw0sub.cons₂ a0
                · intro a hamem
                  rw [hres_eq]
                  refine hchange a (fun haeq => ?_)
                  apply hamem
                  rw [haeq, hvs0]
                  exact List.mem_cons_of_mem a0 (hsubv1.mem ha2mem1)
    · exact absurd hset (by simp)

theorem Heap.lookupObj_append_outside {cells : Heap} {a : Addr}
    (h : Heap) (hc : Heap.lookupObj cells a = none) :
    Heap.lookupObj (h ++ cells) a = h.lookupObj a := by
  cases hl : h.lookupObj a with
  | some o => exact Heap.lookupObj_append_left hl cells
  | none => rw [Heap.lookupObj_append_none hl cells]; exact hc

/-- Correspondence for one guarded prompt rewrite
(`if nodeid in copy: copy[nodeid]["inputs"]["text"] = prompt`). -/
theorem guardedSetText_correspond (h : Heap) (f : Nat) (v : JVal) (t : JTree)
    (vs : List Addr) (k1 s : String) (h2 : Heap)
    (hd : dumpVal h f v = some (t, vs)) (hnd : vs.Nodup)
    (hop : guardedSetText h v k1 (.leaf (.str s)) = some h2) :
    ∃ t2 vs2, treeGuardedSetText t k1 (.leaf (.str s)) = some t2
      ∧ dumpVal h2 f v = some (t2, vs2) ∧ vs2.Sublist vs
      ∧ (∀ a, a ∉ vs → h2.lookupObj a = h.lookupObj a) := by
  rw [guardedSetText] at hop
  rw [treeGuardedSetText]
  have hiso := getFieldVal_isSome_correspond h f v t vs k1 hd
  by_cases hg : (getFieldVal h v k1).isSome = true
  · rw [if_pos hg] at hop
    rw [if_pos (by rw [← hiso]; exact hg)]
    exact setPath2_correspond h f v t vs k1 "inputs" "text" (.str s) h2 hd hnd hop
  · rw [if_neg hg] at hop
    rw [if_neg (by rw [← hiso]; exact hg)]
    have hh2 : h2 = h := (Option.some.inj hop).symm
    exact ⟨t, vs, rfl, hh2 ▸ hd, List.Sublist.refl vs, fun a _ => by rw [hh2]⟩

/-- Correspondence for one guarded seed rewrite
(`if nodeid in copy and "inputs" in copy[nodeid]: ...[seedKey] = -1`). -/
theorem guardedSetSeed_correspond (h : Heap) (f : Nat) (v : JVal) (t : JTree)
    (vs : List Addr) (k1 seedKey : String) (h2 : Heap)
    (hd : dumpVal h f v = some (t, vs)) (hnd : vs.Nodup)
    (hop : guardedSetSeed h v k1 seedKey = some h2) :
    ∃ t2 vs2, treeGuardedSetSeed t k1 seedKey = some t2
      ∧ dumpVal h2 f v = some (t2, vs2) ∧ vs2.Sublist vs
      ∧ (∀ a, a ∉ vs → h2.lookupObj a = h.lookupObj a) := by
  rw [guardedSetSeed] at hop
  split at hop
  · rename_i v1 hg1
    obtain ⟨t1, vs1, htg1, hdv1, hsub1, -⟩ :=
      getFieldVal_correspond_some h f v t vs k1 v1 hd hg1
    have hiso := getFieldVal_isSome_correspond h f v1 t1 vs1 "inputs" hdv1
    by_cases hg2 : (getFieldVal h v1 "inputs").isSome = true
    · rw [if_pos hg2] at hop
      obtain ⟨t2, vs2, htree, hdump, hsub, hpres⟩ :=
        setPath2_correspond h f v t vs k1 "inputs" seedKey (.int (-1)) h2 hd hnd hop
      refine ⟨t2, vs2, ?_, hdump, hsub, hpres⟩
      rw [treeGuardedSetSeed, htg1]
      show (if (treeGet t1 "inputs").isSome = true then
          treeSetPath2 t k1 "inputs" seedKey (.leaf (.int (-1)))
        else some t) = some t2
      rw [if_pos (by rw [← hiso]; exact hg2)]
      exact htree
    · rw [if_neg hg2] at hop
      have hh2 : h2 = h := (Option.some.inj hop).symm
      refine ⟨t, vs, ?_, hh2 ▸ hd, List.Sublist.refl vs, fun a _ => by rw [hh2]⟩
      rw [treeGuardedSetSeed, htg1]
      show (if (treeGet t1 "inputs").isSome = true then
          treeSetPath2 t k1 "inputs" seedKey (.leaf (.int (-1)))
        else some t) = some t
      rw [if_neg (by rw [← hiso]; exact hg2)]
  · rename_i hg1
    have htg1 : treeGet t k1 = none := getFieldVal_correspond_none h f v t vs k1 hd hg1
    have hh2 : h2 = h := (Option.some.inj hop).symm
    refine ⟨t, vs, ?_, hh2 ▸ hd, List.Sublist.refl vs, fun a _ => by rw [hh2]⟩
    rw [treeGuardedSetSeed, htg1]

/-- Correspondence for `modify_workflow_for_image`: the returned value
is a freshly allocated document whose serialization is the tree-level
image rewrite of the template; the pre-existing heap (in particular the
shared template) is untouched, and everything at or beyond the new
frontier stays free. -/
theorem modifyWorkflowForImage_correspond (h : Heap) (root : JVal)
    (fuel next : Nat) (img : String) (t : JTree) (vs0 : List Addr)
    (h1 : Heap) (v : JVal) (n1 : Nat)
    (hfresh : HeapFresh h next)
    (hd : dumpVal h fuel root = some (t, vs0))
    (hop : modifyWorkflowForImage h root fuel next img = some (h1, v, n1)) :
    ∃ t1 F vs1, treeModifyForImage t img = some t1
      ∧ dumpVal h1 F v = some (t1, vs1) ∧ vs1.Nodup
      ∧ (∀ a ∈ vs1, next ≤ a ∧ a < n1)
      ∧ (∀ a, a < next → h1.lookupObj a = h.lookupObj a)
      ∧ HeapFresh h1 n1
      ∧ next ≤ n1 := by
  rw [modifyWorkflowForImage] at hop
  split at hop
  · exact absurd hop (by simp)
  · rename_i tv t' vsd hdump2
    obtain ⟨ht', -⟩ :=
      Prod.mk.injEq _ _ _ _ ▸ Option.some.inj (hdump2.symm.trans hd)
    rw [ht'] at hop
    split at hop
    rename_i alloc3 v0 cells n1p halloc
    obtain ⟨hle, hcells, hround⟩ :=
      (alloc_spec (sizeOf t)).1 t next v0 cells n1p (le_refl _) halloc
    obtain ⟨F, vsr, hdumpv, hndr, hranger⟩ := hround h hfresh
    have hiso := getFieldVal_isSome_correspond (h ++ cells) F v0 t vsr "1" hdumpv
    have hpresC : ∀ a, a < next →
        Heap.lookupObj (h ++ cells) a = h.lookupObj a :=
      fun a ha => Heap.lookupObj_append_outside h (hcells a (Or.inl ha))
    have hfreshC : HeapFresh (h ++ cells) n1p := by
      intro a ha
      rw [Heap.lookupObj_append_outside h (hcells a (Or.inr ha))]
      exact hfresh a (le_trans hle ha)
    dsimp only at hop
    split at hop
    · rename_i hguard
      split at hop
      · rename_i h2 hsetp
        obtain ⟨hh1, hvn⟩ :=
          Prod.mk.injEq _ _ _ _ ▸ Option.some.inj hop
        obtain ⟨hv2, hn2⟩ := Prod.mk.injEq _ _ _ _ ▸ hvn
        obtain ⟨t2, vs2, htree, hdump3, hsub, hpres⟩ :=
          setPath2_correspond (h ++ cells) F v0 t vsr "1" "inputs" "image"
            (.str img) h2 hdumpv hndr hsetp
        refine ⟨t2, F, vs2, ?_, ?_, hsub.nodup hndr, ?_, ?_, ?_, by omega⟩
        · rw [treeModifyForImage, if_pos (by rw [← hiso]; exact hguard)]
          exact htree
        · rw [← hh1, ← hv2]
          exact hdump3
        · intro a ha
          rw [← hn2]
          exact hranger a (hsub.mem ha)
        · intro a ha
          rw [← hh1]
          have hnotmem : a ∉ vsr := by
            intro hmem
            exact absurd (hranger a hmem).1 (Nat.not_le.mpr ha)
          rw [hpres a hnotmem]
          exact hpresC a ha
        · intro a ha
          rw [← hh1]
          rw [← hn2] at ha
          have hnotmem : a ∉ vsr := by
            intro hmem
            exact absurd ha (Nat.not_le.mpr (hranger a hmem).2)
          rw [hpres a hnotmem]
          exact hfreshC a ha
      · exact absurd hop (by simp)
    · rename_i hguard
      obtain ⟨hh1, hvn⟩ :=
        Prod.mk.injEq _ _ _ _ ▸ Option.some.inj hop
      obtain ⟨hv2, hn2⟩ := Prod.mk.injEq _ _ _ _ ▸ hvn
      refine ⟨t, F, vsr, ?_, ?_, hndr, ?_, ?_, ?_, by omega⟩
      · rw [treeModifyForImage, if_neg (by rw [← hiso]; exact hguard)]
      · rw [← hh1, ← hv2]
        exact hdumpv
      · intro a ha
        rw [← hn2]
        exact hranger a ha
      · intro a ha
        rw [← hh1]
        exact hpresC a ha
      · intro a ha
        rw [← hh1]
        rw [← hn2] at ha
        exact hfreshC a ha

/-- Correspondence for the full per-item instantiation: it produces a
fresh document serializing to the tree-level instantiation of the
template, touches no pre-existing dict, and leaves the frontier free. -/
theorem instantiateJob_correspond (h : Heap) (root : JVal) (fuel next : Nat)
    (img pos neg : String) (t : JTree) (vs0 : List Addr)
    (h5 : Heap) (v : JVal) (n1 : Nat)
    (hfresh : HeapFresh h next)
    (hd : dumpVal h fuel root = some (t, vs0))
    (hop : instantiateJob h root fuel next img pos neg = some (h5, v, n1)) :
    ∃ tI F vsI, instTree t img pos neg = some tI
      ∧ dumpVal h5 F v = some (tI, vsI) ∧ vsI.Nodup
      ∧ (∀ a ∈ vsI, next ≤ a ∧ a < n1)
      ∧ (∀ a, a < next → h5.lookupObj a = h.lookupObj a)
      ∧ HeapFresh h5 n1
      ∧ next ≤ n1 := by
  rw [instantiateJob] at hop
  split at hop
  · exact absurd hop (by simp)
  rename_i mres h1 v1 n1p hmod
  split at hop
  · exact absurd hop (by simp)
  rename_i h2 htxt10
  split at hop
  · exact absurd hop (by simp)
  rename_i h3 htxt15
  split at hop
  · exact absurd hop (by simp)
  rename_i h4 hseed12
  split at hop
  · exact absurd hop (by simp)
  rename_i h5b hseed46
  obtain ⟨hh5, hvn⟩ := Prod.mk.injEq _ _ _ _ ▸ Option.some.inj hop
  obtain ⟨hv1, hn1p⟩ := Prod.mk.injEq _ _ _ _ ▸ hvn
  obtain ⟨t1, F, vs1, htree1, hdump1, hnd1, hrange1, hpres1, hfresh1, hle1⟩ :=
    modifyWorkflowForImage_correspond h root fuel next img t vs0 h1 v1 n1p
      hfresh hd hmod
  obtain ⟨t2, vs2, htree2, hdump2, hsub2, hpres2⟩ :=
    guardedSetText_correspond h1 F v1 t1 vs1 "10" pos h2 hdump1 hnd1 htxt10
  have hnd2 : vs2.Nodup := hsub2.nodup hnd1
  obtain ⟨t3, vs3, htree3, hdump3, hsub3, hpres3⟩ :=
    guardedSetText_correspond h2 F v1 t2 vs2 "15" neg h3 hdump2 hnd2 htxt15
  have hnd3 : vs3.Nodup := hsub3.nodup hnd2
  obtain ⟨t4, vs4, htree4, hdump4, hsub4, hpres4⟩ :=
    guardedSetSeed_correspond h3 F v1 t3 vs3 "12" "noise_seed" h4 hdump3 hnd3 hseed12
  have hnd4 : vs4.Nodup := hsub4.nodup hnd3
  obtain ⟨t5, vs5, htree5, hdump5, hsub5, hpres5⟩ :=
    guardedSetSeed_correspond h4 F v1 t4 vs4 "46" "seed" h5b hdump4 hnd4 hseed46
  have hnd5 : vs5.Nodup := hsub5.nodup hnd4
  have hchain : ∀ a, a ∉ vs1 → h5b.lookupObj a = h1.lookupObj a := by
    intro a ha1
    have ha2 : a ∉ vs2 := fun hm => ha1 (hsub2.mem hm)
    have ha3 : a ∉ vs3 := fun hm => ha2 (hsub3.mem hm)
    have ha4 : a ∉ vs4 := fun hm => ha3 (hsub4.mem hm)
    rw [hpres5 a ha4, hpres4 a ha3, hpres3 a ha2, hpres2 a ha1]
  refine ⟨t5, F, vs5, ?_, ?_, hnd5, ?_, ?_, ?_, by omega⟩
  · rw [instTree, htree1]
    show (match treeGuardedSetText t1 "10" (.leaf (.str pos)) with
      | none => none
      | some t2 =>
        match treeGuardedSetText t2 "15" (.leaf (.str neg)) with
        | none => none
        | some t3 =>
          match treeGuardedSetSeed t3 "12" "noise_seed" with
          | none => none
          | some t4 => treeGuardedSetSeed t4 "46" "seed") = some t5
    rw [htree2]
    show (match treeGuardedSetText t2 "15" (.leaf (.str neg)) with
      | none => none
      | some t3 =>
        match treeGuardedSetSeed t3 "12" "noise_seed" with
        | none => none
        | some t4 => treeGuardedSetSeed t4 "46" "seed") = some t5
    rw [htree3]
    show (match treeGuardedSetSeed t3 "12" "noise_seed" with
      | none => none
      | some t4 => treeGuardedSetSeed t4 "46" "seed") = some t5
    rw [htree4]
    show treeGuardedSetSeed t4 "46" "seed" = some t5
    exact htree5
  · rw [← hh5, ← hv1]
    exact hdump5
  · intro a ha
    rw [← hn1p]
    exact hrange1 a (hsub2.mem (hsub3.mem (hsub4.mem (hsub5.mem ha))))
  · intro a ha
    rw [← hh5]
    have hnm : a ∉ vs1 := fun hm => absurd (hrange1 a hm).1 (Nat.not_le.mpr ha)
    rw [hchain a hnm]
    exact hpres1 a ha
  · intro a ha
    rw [← hh5]
    rw [← hn1p] at ha
    have hnm : a ∉ vs1 := fun hm => absurd ha (Nat.not_le.mpr (hrange1 a hm).2)
    rw [hchain a hnm]
    exact hfresh1 a ha

/-! ### Tree-level rewrite lemmas -/

theorem updFirstField_get_self (fields : List (String × JTree)) (k : String)
    (x t0 : JTree) (hf : findTreeField fields k = some t0) :
    findTreeField (updFirstField fields k x) k = some x := by
  induction fields with
  | nil => rw [findTreeField_nil] at hf; exact absurd hf (by simp)
  | cons kt rest ih =>
    obtain ⟨k0, tt0⟩ := kt
    rw [findTreeField_cons] at hf
    by_cases hk : k0 = k
    · rw [updFirstField_cons_pos k0 tt0 rest k x hk, findTreeField_cons, if_pos hk]
    · rw [if_neg hk] at hf
      rw [updFirstField_cons_neg k0 tt0 rest k x hk, findTreeField_cons, if_neg hk]
      exact ih hf

theorem updFirstField_get_other (fields : List (String × JTree)) (k kp : String)
    (x : JTree) (hk : ¬ kp = k) :
    findTreeField (updFirstField fields k x) kp = findTreeField fields kp := by
  induction fields with
  | nil => rw [updFirstField]
  | cons kt rest ih =>
    obtain ⟨k0, tt0⟩ := kt
    by_cases h0 : k0 = k
    · rw [updFirstField_cons_pos k0 tt0 rest k x h0, findTreeField_cons,
        findTreeField_cons]
      have : ¬ k0 = kp := by rw [h0]; exact fun hh => hk hh.symm
      rw [if_neg this, if_neg this]
    · rw [updFirstField_cons_neg k0 tt0 rest k x h0, findTreeField_cons,
        findTreeField_cons]
      by_cases h1 : k0 = kp
      · rw [if_pos h1, if_pos h1]
      · rw [if_neg h1, if_neg h1]
        exact ih

theorem findTreeField_not_any (fields : List (String × JTree)) (k : String)
    (hany : ¬ fields.any (fun p => p.1 = k) = true) :
    findTreeField fields k = none := by
  induction fields with
  | nil => exact findTreeField_nil k
  | cons kt rest ih =>
    obtain ⟨k0, tt0⟩ := kt
    simp only [List.any_cons, Bool.or_eq_true, not_or, decide_eq_true_eq] at hany
    obtain ⟨h0, hrest⟩ := hany
    rw [findTreeField_cons, if_neg h0]
    exact ih (by simpa using hrest)

theorem findTreeField_map_replace (fields : List (String × JTree)) (k : String)
    (x : JTree) (hany : fields.any (fun p => p.1 = k) = true) :
    findTreeField (fields.map (fun p => if p.1 = k then (k, x) else p)) k
      = some x := by
  induction fields with
  | nil => simp at hany
  | cons kt rest ih =>
    obtain ⟨k0, tt0⟩ := kt
    rw [List.map_cons]
    by_cases h0 : k0 = k
    · rw [if_pos (by simpa using h0), findTreeField_cons, if_pos rfl]
    · rw [if_neg (by simpa using h0), findTreeField_cons, if_neg h0]
      rw [List.any_cons, Bool.or_eq_true] at hany
      rcases hany with hh | hrest
      · exact absurd (by simpa using hh) h0
      · exact ih hrest

theorem findTreeField_map_replace_other (fields : List (String × JTree))
    (k kp : String) (x : JTree) (hk : ¬ kp = k) :
    findTreeField (fields.map (fun p => if p.1 = k then (k, x) else p)) kp
      = findTreeField fields kp := by
  induction fields with
  | nil => rfl
  | cons kt rest ih =>
    obtain ⟨k0, tt0⟩ := kt
    rw [List.map_cons]
    by_cases h0 : k0 = k
    · rw [if_pos (by simpa using h0), findTreeField_cons, findTreeField_cons]
      have hne : ¬ k0 = kp := by rw [h0]; exact fun hh => hk hh.symm
      rw [if_neg (fun hh => hk hh.symm), if_neg hne]
      exact ih
    · rw [if_neg (by simpa using h0), findTreeField_cons, findTreeField_cons]
      by_cases h1 : k0 = kp
      · rw [if_pos h1, if_pos h1]
      · rw [if_neg h1, if_neg h1]
        exact ih

theorem findTreeField_append_single (fields : List (String × JTree))
    (k : String) (x : JTree) (hnone : findTreeField fields k = none) :
    findTreeField (fields ++ [(k, x)]) k = some x := by
  induction fields with
  | nil => rw [List.nil_append, findTreeField_cons, if_pos rfl]
  | cons kt rest ih =>
    obtain ⟨k0, tt0⟩ := kt
    rw [findTreeField_cons] at hnone
    by_cases h0 : k0 = k
    · rw [if_pos h0] at hnone
      exact absurd hnone (by simp)
    · rw [if_neg h0] at hnone
      rw [List.cons_append, findTreeField_cons, if_neg h0]
      exact ih hnone

theorem findTreeField_append_single_other (fields : List (String × JTree))
    (k kp : String) (x : JTree) (hk : ¬ kp = k) :
    findTreeField (fields ++ [(k, x)]) kp = findTreeField fields kp := by
  induction fields with
  | nil =>
    rw [List.nil_append, findTreeField_cons, findTreeField_nil,
      if_neg (fun hh => hk hh.symm)]
  | cons kt rest ih =>
    obtain ⟨k0, tt0⟩ := kt
    rw [List.cons_append, findTreeField_cons, findTreeField_cons]
    by_cases h1 : k0 = kp
    · rw [if_pos h1, if_pos h1]
    · rw [if_neg h1, if_neg h1]
      exact ih

theorem setKeyTree_get_self (fields : List (String × JTree)) (k : String)
    (x : JTree) : findTreeField (setKeyTree fields k x) k = some x := by
  rw [setKeyTree]
  by_cases hany : fields.any (fun p => p.1 = k) = true
  · rw [if_pos hany]
    exact findTreeField_map_replace fields k x hany
  · rw [if_neg hany]
    exact findTreeField_append_single fields k x (findTreeField_not_any fields k hany)

theorem setKeyTree_get_other (fields : List (String × JTree)) (k kp : String)
    (x : JTree) (hk : ¬ kp = k) :
    findTreeField (setKeyTree fields k x) kp = findTreeField fields kp := by
  rw [setKeyTree]
  by_cases hany : fields.any (fun p => p.1 = k) = true
  · rw [if_pos hany]
    exact findTreeField_map_replace_other fields k kp x hk
  · rw [if_neg hany]
    exact findTreeField_append_single_other fields k kp x hk

theorem treeSetPath2_inv (t : JTree) (k1 k2 k3 : String) (x t2 : JTree)
    (hset : treeSetPath2 t k1 k2 k3 x = some t2) :
    ∃ fields fields1 fields2, t = .obj fields
      ∧ findTreeField fields k1 = some (.obj fields1)
      ∧ findTreeField fields1 k2 = some (.obj fields2)
      ∧ t2 = .obj (updFirstField fields k1 (.obj (updFirstField fields1 k2
          (.obj (setKeyTree fields2 k3 x))))) := by
  cases t with
  | leaf l => rw [treeSetPath2] at hset; exact absurd hset (by simp)
  | obj fields =>
    rw [treeSetPath2] at hset
    split at hset
    · exact absurd hset (by simp)
    rename_i t1 hf1
    split at hset
    · exact absurd hset (by simp)
    rename_i fields1
    split at hset
    · exact absurd hset (by simp)
    rename_i t2a hf2
    split at hset
    · exact absurd hset (by simp)
    rename_i fields2
    exact ⟨fields, fields1, fields2, rfl, hf1, hf2, (Option.some.inj hset).symm⟩

theorem treeSetPath2_get_other (t : JTree) (k1 k2 k3 kp : String) (x t2 : JTree)
    (hset : treeSetPath2 t k1 k2 k3 x = some t2) (hk : ¬ kp = k1) :
    treeGet t2 kp = treeGet t kp := by
  obtain ⟨fields, fields1, fields2, ht, hf1, hf2, ht2⟩ :=
    treeSetPath2_inv t k1 k2 k3 x t2 hset
  rw [ht, ht2, treeGet, treeGet]
  exact updFirstField_get_other fields k1 kp _ hk

theorem treeGuardedSetText_get_other (t : JTree) (k1 kp : String) (x t2 : JTree)
    (hop : treeGuardedSetText t k1 x = some t2) (hk : ¬ kp = k1) :
    treeGet t2 kp = treeGet t kp := by
  rw [treeGuardedSetText] at hop
  by_cases hg : (treeGet t k1).isSome = true
  · rw [if_pos hg] at hop
    exact treeSetPath2_get_other t k1 "inputs" "text" kp x t2 hop hk
  · rw [if_neg hg] at hop
    rw [← Option.some.inj hop]

theorem treeGuardedSetSeed_get_other (t : JTree) (k1 seedKey kp : String)
    (t2 : JTree) (hop : treeGuardedSetSeed t k1 seedKey = some t2)
    (hk : ¬ kp = k1) : treeGet t2 kp = treeGet t kp := by
  rw [treeGuardedSetSeed] at hop
  split at hop
  · rename_i t1 hg1
    split at hop
    · exact treeSetPath2_get_other t k1 "inputs" seedKey kp _ t2 hop hk
    · rw [← Option.some.inj hop]
  · rw [← Option.some.inj hop]

theorem treeModifyForImage_get_other (t : JTree) (img : String) (kp : String)
    (t2 : JTree) (hop : treeModifyForImage t img = some t2) (hk : ¬ kp = "1") :
    treeGet t2 kp = treeGet t kp := by
  rw [treeModifyForImage] at hop
  by_cases hg : (treeGet t "1").isSome = true
  · rw [if_pos hg] at hop
    exact treeSetPath2_get_other t "1" "inputs" "image" kp _ t2 hop hk
  · rw [if_neg hg] at hop
    rw [← Option.some.inj hop]

/-- Unfolding of `instTree` into its five sequential tree rewrites. -/
theorem instTree_inv (t : JTree) (img pos neg : String) (tI : JTree)
    (hinst : instTree t img pos neg = some tI) :
    ∃ t1 t2 t3 t4, treeModifyForImage t img = some t1
      ∧ treeGuardedSetText t1 "10" (.leaf (.str pos)) = some t2
      ∧ treeGuardedSetText t2 "15" (.leaf (.str neg)) = some t3
      ∧ treeGuardedSetSeed t3 "12" "noise_seed" = some t4
      ∧ treeGuardedSetSeed t4 "46" "seed" = some tI := by
  rw [instTree] at hinst
  split at hinst
  · exact absurd hinst (by simp)
  rename_i t1 h1
  split at hinst
  · exact absurd hinst (by simp)
  rename_i t2 h2
  split at hinst
  · exact absurd hinst (by simp)
  rename_i t3 h3
  split at hinst
  · exact absurd hinst (by simp)
  rename_i t4 h4
  exact ⟨t1, t2, t3, t4, h1, h2, h3, h4, hinst⟩

/-- Top-level fields other than the five rewritten node ids are
structurally identical between the template and the instantiated
document. -/
theorem instTree_get_other (t : JTree) (img pos neg : String) (tI : JTree)
    (hinst : instTree t img pos neg = some tI) (kp : String)
    (h1 : ¬ kp = "1") (h10 : ¬ kp = "10") (h15 : ¬ kp = "15")
    (h12 : ¬ kp = "12") (h46 : ¬ kp = "46") :
    treeGet tI kp = treeGet t kp := by
  obtain ⟨t1, t2, t3, t4, hm, ht10, ht15, hs12, hs46⟩ :=
    instTree_inv t img pos neg tI hinst
  rw [treeGuardedSetSeed_get_other t4 "46" "seed" kp tI hs46 h46,
    treeGuardedSetSeed_get_other t3 "12" "noise_seed" kp t4 hs12 h12,
    treeGuardedSetText_get_other t2 "15" kp _ t3 ht15 h15,
    treeGuardedSetText_get_other t1 "10" kp _ t2 ht10 h10,
    treeModifyForImage_get_other t img kp t1 hm h1]

/-- A successful `guardedSetSeed`-style rewrite forces the seed key of
the node's `inputs` dict to the sentinel `-1`, whenever the node and its
`inputs` are present in the result. -/
theorem treeGuardedSetSeed_seed (t : JTree) (k1 seedKey : String) (t2 : JTree)
    (hop : treeGuardedSetSeed t k1 seedKey = some t2) (tk tinp : JTree)
    (hk : treeGet t2 k1 = some tk) (hinp : treeGet tk "inputs" = some tinp) :
    treeGet tinp seedKey = some (.leaf (.int (-1))) := by
  rw [treeGuardedSetSeed] at hop
  split at hop
  · rename_i t1 hg1
    by_cases hs : (treeGet t1 "inputs").isSome = true
    · rw [if_pos hs] at hop
      obtain ⟨fields, fields1, fields2, ht, hf1, hf2, ht2⟩ :=
        treeSetPath2_inv t k1 "inputs" seedKey (.leaf (.int (-1))) t2 hop
      have hgk : treeGet t2 k1 = some (.obj (updFirstField fields1 "inputs"
          (.obj (setKeyTree fields2 seedKey (.leaf (.int (-1))))))) := by
        rw [ht2, treeGet]
        exact updFirstField_get_self fields k1 _ _ hf1
      rw [hgk] at hk
      rw [← Option.some.inj hk, treeGet] at hinp
      rw [updFirstField_get_self fields1 "inputs" _ _ hf2] at hinp
      rw [← Option.some.inj hinp, treeGet]
      exact setKeyTree_get_self fields2 seedKey _
    · rw [if_neg hs] at hop
      rw [← Option.some.inj hop] at hk
      rw [hg1] at hk
      rw [Option.some.inj hk, hinp] at hs
      exact absurd rfl hs
  · rename_i hg1
    rw [← Option.some.inj hop, hg1] at hk
    exact absurd hk (by simp)

/-- In an instantiated workflow document, node 12's `noise_seed` and node
46's `seed` are the sentinel `-1` whenever the node and its `inputs` dict
are present. -/
theorem instTree_seeds (t : JTree) (img pos neg : String) (tI : JTree)
    (hinst : instTree t img pos neg = some tI) :
    (∀ tk tinp, treeGet tI "12" = some tk → treeGet tk "inputs" = some tinp →
      treeGet tinp "noise_seed" = some (.leaf (.int (-1))))
    ∧ (∀ tk tinp, treeGet tI "46" = some tk → treeGet tk "inputs" = some tinp →
      treeGet tinp "seed" = some (.leaf (.int (-1)))) := by
  obtain ⟨t1, t2, t3, t4, hm, ht10, ht15, hs12, hs46⟩ :=
    instTree_inv t img pos neg tI hinst
  constructor
  · intro tk tinp hk hinp
    have hk4 : treeGet t4 "12" = some tk := by
      rw [← treeGuardedSetSeed_get_other t4 "46" "seed" "12" tI hs46 (by simp)]
      exact hk
    exact treeGuardedSetSeed_seed t3 "12" "noise_seed" t4 hs12 tk tinp hk4 hinp
  · intro tk tinp hk hinp
    exact treeGuardedSetSeed_seed t4 "46" "seed" tI hs46 tk tinp hk hinp

/-! ### Path resolution in the heap -/

/-- Resolve a chain of subscripts `doc[k1][k2]...` against the heap,
as Python attribute access would. -/
def resolvePath (h : Heap) (v : JVal) : List String → Option JVal
  | [] => some v
  | k :: ks =>
    match getFieldVal h v k with
    | some v1 => resolvePath h v1 ks
    | none => none

theorem resolvePath_nil (h : Heap) (v : JVal) : resolvePath h v [] = some v := rfl

theorem resolvePath_cons (h : Heap) (v : JVal) (k : String) (ks : List String) :
    resolvePath h v (k :: ks)
      = match getFieldVal h v k with
        | some v1 => resolvePath h v1 ks
        | none => none := rfl

/-- Any dict reachable by subscripting from a serialized value has its
address inside the serialization's visited list. -/
theorem resolvePath_ref_visited (h : Heap) :
    ∀ (p : List String) (v : JVal) (f : Nat) (t : JTree) (vs : List Addr)
      (a : Addr), dumpVal h f v = some (t, vs) →
      resolvePath h v p = some (.ref a) → a ∈ vs := by
  intro p
  induction p with
  | nil =>
    intro v f t vs a hd hr
    rw [resolvePath_nil] at hr
    rw [Option.some.inj hr] at hd
    cases f with
    | zero => exact absurd (dumpVal_zero_ref_inv h a (t, vs) hd) not_false
    | succ f0 =>
      obtain ⟨o, ts, vs0, -, -, hpair⟩ := dumpVal_ref_inv h f0 a (t, vs) hd
      obtain ⟨-, hvs⟩ := Prod.mk.injEq _ _ _ _ ▸ hpair
      rw [hvs]
      exact List.mem_cons_self a vs0
  | cons k ks ih =>
    intro v f t vs a hd hr
    rw [resolvePath_cons] at hr
    cases hg : getFieldVal h v k with
    | none => rw [hg] at hr; exact absurd hr (by simp)
    | some v1 =>
      rw [hg] at hr
      obtain ⟨t1, vs1, -, hd1, hsub, -⟩ :=
        getFieldVal_correspond_some h f v t vs k v1 hd hg
      exact hsub.mem (ih v1 f t1 vs1 a hd1 hr)

/-- Inversion of a successful field assignment: the target is a dict
reference and the heap is updated at exactly that address. -/
theorem setFieldAt_inv (h : Heap) (w : JVal) (k : String) (x : JVal)
    (h3 : Heap) (hset : setFieldAt h w k x = some h3) :
    ∃ a o, w = .ref a ∧ h.lookupObj a = some o
      ∧ h3 = h.setObj a (JObj.setKey o k x) := by
  cases w with
  | leaf l => rw [setFieldAt] at hset; exact absurd hset (by simp)
  | ref a =>
    rw [setFieldAt] at hset
    split at hset
    · rename_i o hl
      exact ⟨a, o, rfl, hl, (Option.some.inj hset).symm⟩
    · exact absurd hset (by simp)

/-- A serialization that yields a bare leaf tree can only come from a
leaf value. -/
theorem dumpVal_leaf_tree_inv (h : Heap) (f : Nat) (v : JVal) (l : JLeaf)
    (vs : List Addr) (hd : dumpVal h f v = some (.leaf l, vs)) :
    v = .leaf l := by
  cases v with
  | leaf l0 =>
    obtain ⟨ht, -⟩ := Prod.mk.injEq _ _ _ _ ▸
      dumpVal_leaf_inv h f l0 (.leaf l, vs) hd
    rw [JTree.leaf.inj ht]
  | ref a =>
    cases f with
    | zero => exact absurd (dumpVal_zero_ref_inv h a (.leaf l, vs) hd) not_false
    | succ f0 =>
      obtain ⟨o, ts, vs0, -, -, hpair⟩ := dumpVal_ref_inv h f0 a (.leaf l, vs) hd
      obtain ⟨ht, -⟩ := Prod.mk.injEq _ _ _ _ ▸ hpair
      exact absurd ht (by simp)

/-- In a heap that is fresh above `next`, every visited address of a
serialization lies strictly below `next`. -/
theorem dumpVal_visited_lt {h : Heap} {next : Nat} (hfresh : HeapFresh h next)
    (f : Nat) (v : JVal) (t : JTree) (vs : List Addr)
    (hd : dumpVal h f v = some (t, vs)) : ∀ a ∈ vs, a < next := by
  intro a ha
  by_contra hge
  have hnone := hfresh a (Nat.le_of_not_lt hge)
  have hsome := dumpVal_visited h f v t vs hd a ha
  rw [hnone] at hsome
  exact absurd hsome (by simp)

/-! ## Claim C4 -/

/-- C4: Instantiating the shared job template (`json.loads(json.dumps(...))`
deep copy followed by the image/prompt/seed rewrites) never mutates the
shared template object. For any template heap value `root` serializing to
document `t` and any two successive instantiations (with arbitrary image
names and prompts), (i) the template still serializes to exactly `t`
afterwards, (ii) each instance serializes to the pure tree-level rewrite
`instTree` of `t`, (iii) every top-level field other than the five
rewritten node ids ("1", "10", "15", "12", "46") of an instance is
structurally identical to the template's, and (iv) the two instances are
independent: mutating any dict reachable from one instance changes
neither the template's serialization nor the other instance's. -/
theorem claim4_template_instantiation_independence (h : Heap) (root : JVal)
    (fuel next : Nat) (img1 pos1 neg1 img2 pos2 neg2 : String)
    (t : JTree) (vs0 : List Addr) (h1 : Heap) (r1 : JVal) (n1 : Nat)
    (h2 : Heap) (r2 : JVal) (n2 : Nat)
    (hfresh : HeapFresh h next)
    (hd : dumpVal h fuel root = some (t, vs0))
    (hA : instantiateJob h root fuel next img1 pos1 neg1 = some (h1, r1, n1))
    (hB : instantiateJob h1 root fuel n1 img2 pos2 neg2 = some (h2, r2, n2)) :
    ∃ tI1 tI2 F1 F2 vsI1 vsI2,
      instTree t img1 pos1 neg1 = some tI1
      ∧ instTree t img2 pos2 neg2 = some tI2
      ∧ dumpVal h2 fuel root = some (t, vs0)
      ∧ dumpVal h2 F1 r1 = some (tI1, vsI1)
      ∧ dumpVal h2 F2 r2 = some (tI2, vsI2)
      ∧ (∀ kp, ¬ kp = "1" → ¬ kp = "10" → ¬ kp = "15" → ¬ kp = "12" →
          ¬ kp = "46" → treeGet tI1 kp = treeGet t kp)
      ∧ (∀ p k x w h3, resolvePath h2 r2 p = some w →
          setFieldAt h2 w k x = some h3 →
          dumpVal h3 fuel root = some (t, vs0)
          ∧ dumpVal h3 F1 r1 = some (tI1, vsI1))
      ∧ (∀ p k x w h3, resolvePath h2 r1 p = some w →
          setFieldAt h2 w k x = some h3 →
          dumpVal h3 F2 r2 = some (tI2, vsI2)) := by
  obtain ⟨tI1, F1, vsI1, hi1, hdump1, hnd1, hrange1, hpres1, hfresh1, hle1⟩ :=
    instantiateJob_correspond h root fuel next img1 pos1 neg1 t vs0 h1 r1 n1
      hfresh hd hA
  have hvs0lt : ∀ a ∈ vs0, a < next := dumpVal_visited_lt hfresh fuel root t vs0 hd
  have htmpl1 : dumpVal h1 fuel root = some (t, vs0) :=
    dumpVal_agree fuel root t vs0 hd (fun a ha => hpres1 a (hvs0lt a ha))
  obtain ⟨tI2, F2, vsI2, hi2, hdump2, hnd2, hrange2, hpres2, hfresh2, hle2⟩ :=
    instantiateJob_correspond h1 root fuel n1 img2 pos2 neg2 t vs0 h2 r2 n2
      hfresh1 htmpl1 hB
  have htmpl2 : dumpVal h2 fuel root = some (t, vs0) :=
    dumpVal_agree fuel root t vs0 htmpl1
      (fun a ha => hpres2 a (lt_of_lt_of_le (hvs0lt a ha) hle1))
  have hdump1b : dumpVal h2 F1 r1 = some (tI1, vsI1) :=
    dumpVal_agree F1 r1 tI1 vsI1 hdump1 (fun a ha => hpres2 a (hrange1 a ha).2)
  refine ⟨tI1, tI2, F1, F2, vsI1, vsI2, hi1, hi2, htmpl2, hdump1b, hdump2,
    ?_, ?_, ?_⟩
  · intro kp hk1 hk10 hk15 hk12 hk46
    exact instTree_get_other t img1 pos1 neg1 tI1 hi1 kp hk1 hk10 hk15 hk12 hk46
  · intro p k x w h3 hres hset
    obtain ⟨a, o, hw, hl, hh3⟩ := setFieldAt_inv h2 w k x h3 hset
    rw [hw] at hres
    have haI2 : a ∈ vsI2 := resolvePath_ref_visited h2 p r2 F2 tI2 vsI2 a
      hdump2 hres
    have han1 : n1 ≤ a := (hrange2 a haI2).1
    constructor
    · refine dumpVal_agree fuel root t vs0 htmpl2 (fun b hb => ?_)
      rw [hh3]
      exact Heap.setObj_lookup_other
        (Nat.ne_of_lt (lt_of_lt_of_le (hvs0lt b hb) (le_trans hle1 han1))) _
    · refine dumpVal_agree F1 r1 tI1 vsI1 hdump1b (fun b hb => ?_)
      rw [hh3]
      exact Heap.setObj_lookup_other
        (Nat.ne_of_lt (lt_of_lt_of_le (hrange1 b hb).2 han1)) _
  · intro p k x w h3 hres hset
    obtain ⟨a, o, hw, hl, hh3⟩ := setFieldAt_inv h2 w k x h3 hset
    rw [hw] at hres
    have haI1 : a ∈ vsI1 := resolvePath_ref_visited h2 p r1 F1 tI1 vsI1 a
      hdump1b hres
    have halt : a < n1 := (hrange1 a haI1).2
    refine dumpVal_agree F2 r2 tI2 vsI2 hdump2 (fun b hb => ?_)
    rw [hh3]
    exact Heap.setObj_lookup_other
      (Ne.symm (Nat.ne_of_lt (lt_of_lt_of_le halt (hrange2 b hb).1))) _

/-- A one-dict heap holding the empty template `{}` at address 0. -/
def c4Heap : Heap := [(0, [])]

/-- `c4Heap` after the first instantiation's deep copy. -/
def c4Heap1 : Heap := [(0, []), (1, [])]

/-- `c4Heap1` after the second instantiation's deep copy. -/
def c4Heap2 : Heap := [(0, []), (1, []), (2, [])]

theorem claim4_template_instantiation_independence_witness :
    HeapFresh c4Heap 1
    ∧ dumpVal c4Heap 1 (.ref 0) = some (.obj [], [0])
    ∧ instantiateJob c4Heap (.ref 0) 1 1 "a.png" "p1" "n1"
        = some (c4Heap1, .ref 1, 2)
    ∧ instantiateJob c4Heap1 (.ref 0) 1 2 "b.png" "p2" "n2"
        = some (c4Heap2, .ref 2, 3)
    ∧ (∃ tI1 tI2 F1 F2 vsI1 vsI2,
        instTree (.obj []) "a.png" "p1" "n1" = some tI1
        ∧ instTree (.obj []) "b.png" "p2" "n2" = some tI2
        ∧ dumpVal c4Heap2 1 (.ref 0) = some (.obj [], [0])
        ∧ dumpVal c4Heap2 F1 (.ref 1) = some (tI1, vsI1)
        ∧ dumpVal c4Heap2 F2 (.ref 2) = some (tI2, vsI2)
        ∧ (∀ kp, ¬ kp = "1" → ¬ kp = "10" → ¬ kp = "15" → ¬ kp = "12" →
            ¬ kp = "46" → treeGet tI1 kp = treeGet (.obj []) kp)
        ∧ (∀ p k x w h3, resolvePath c4Heap2 (.ref 2) p = some w →
            setFieldAt c4Heap2 w k x = some h3 →
            dumpVal h3 1 (.ref 0) = some (.obj [], [0])
            ∧ dumpVal h3 F1 (.ref 1) = some (tI1, vsI1))
        ∧ (∀ p k x w h3, resolvePath c4Heap2 (.ref 1) p = some w →
            setFieldAt c4Heap2 w k x = some h3 →
            dumpVal h3 F2 (.ref 2) = some (tI2, vsI2))) := by
  have hfresh : HeapFresh c4Heap 1 := by
    intro a ha
    unfold Heap.lookupObj c4Heap
    rw [List.find?_cons_of_neg _ (by
      simp only [decide_eq_true_eq]
      exact fun hh => absurd hh.symm (Nat.pos_iff_ne_zero.mp ha)),
      List.find?_nil]
    rfl
  have hd : dumpVal c4Heap 1 (.ref 0) = some (.obj [], [0]) :=
    dumpVal_ref_obj c4Heap 0 0 [] [] [] rfl (dumpObj_nil c4Heap 0)
  have hA : instantiateJob c4Heap (.ref 0) 1 1 "a.png" "p1" "n1"
      = some (c4Heap1, .ref 1, 2) := by
    simp [instantiateJob, modifyWorkflowForImage, guardedSetText,
      guardedSetSeed, dumpVal, dumpObj, allocTree, allocFields, getFieldVal,
      findField, Heap.lookupObj, setPath2, setFieldAt, c4Heap, c4Heap1,
      List.find?]
  have hB : instantiateJob c4Heap1 (.ref 0) 1 2 "b.png" "p2" "n2"
      = some (c4Heap2, .ref 2, 3) := by
    simp [instantiateJob, modifyWorkflowForImage, guardedSetText,
      guardedSetSeed, dumpVal, dumpObj, allocTree, allocFields, getFieldVal,
      findField, Heap.lookupObj, setPath2, setFieldAt, c4Heap1, c4Heap2,
      List.find?]
  exact ⟨hfresh, hd, hA, hB,
    claim4_template_instantiation_independence c4Heap (.ref 0) 1 1
      "a.png" "p1" "n1" "b.png" "p2" "n2" (.obj []) [0] c4Heap1 (.ref 1) 2
      c4Heap2 (.ref 2) 3 hfresh hd hA hB⟩

/-! ## Claim C5 -/

/-- C5: In every instantiated job, both random-seed fields — node
`"12"`'s `noise_seed` (the primary sampler) and node `"46"`'s `seed`
(the refinement sampler) — hold the fresh-randomness sentinel `-1`,
for every template, input image name, and prompt pair: whenever the
node's `inputs` dict is present in the instantiated document, reading
the seed key yields `-1`. -/
theorem claim5_seed_sentinel (h : Heap) (root : JVal) (fuel next : Nat)
    (img pos neg : String) (t : JTree) (vs0 : List Addr)
    (h5 : Heap) (v : JVal) (n1 : Nat)
    (hfresh : HeapFresh h next)
    (hd : dumpVal h fuel root = some (t, vs0))
    (hop : instantiateJob h root fuel next img pos neg = some (h5, v, n1)) :
    (∀ w, resolvePath h5 v ["12", "inputs"] = some w →
      getFieldVal h5 w "noise_seed" = some (.leaf (.int (-1))))
    ∧ (∀ w, resolvePath h5 v ["46", "inputs"] = some w →
      getFieldVal h5 w "seed" = some (.leaf (.int (-1)))) := by
  obtain ⟨tI, F, vsI, hi, hdump, -, -, -, -, -⟩ :=
    instantiateJob_correspond h root fuel next img pos neg t vs0 h5 v n1
      hfresh hd hop
  obtain ⟨hseed12, hseed46⟩ := instTree_seeds t img pos neg tI hi
  constructor
  · intro w hres
    rw [resolvePath_cons] at hres
    cases hg1 : getFieldVal h5 v "12" with
    | none => rw [hg1] at hres; exact absurd hres (by simp)
    | some v12 =>
      rw [hg1] at hres
      have hres2 : resolvePath h5 v12 ["inputs"] = some w := hres
      rw [resolvePath_cons] at hres2
      cases hg2 : getFieldVal h5 v12 "inputs" with
      | none => rw [hg2] at hres2; exact absurd hres2 (by simp)
      | some w0 =>
        rw [hg2] at hres2
        have hres3 : resolvePath h5 w0 [] = some w := hres2
        rw [resolvePath_nil] at hres3
        rw [Option.some.inj hres3] at hg2
        obtain ⟨t12, vs12, htg12, hd12, -, -⟩ :=
          getFieldVal_correspond_some h5 F v tI vsI "12" v12 hdump hg1
        obtain ⟨tinp, vsinp, htginp, hdinp, -, -⟩ :=
          getFieldVal_correspond_some h5 F v12 t12 vs12 "inputs" w hd12 hg2
        obtain ⟨vns, vsns, hgns, hdns, -⟩ :=
          treeGet_correspond_some h5 F w tinp vsinp "noise_seed" _ hdinp
            (hseed12 t12 tinp htg12 htginp)
        rw [dumpVal_leaf_tree_inv h5 F vns _ vsns hdns] at hgns
        exact hgns
  · intro w hres
    rw [resolvePath_cons] at hres
    cases hg1 : getFieldVal h5 v "46" with
    | none => rw [hg1] at hres; exact absurd hres (by simp)
    | some v46 =>
      rw [hg1] at hres
      have hres2 : resolvePath h5 v46 ["inputs"] = some w := hres
      rw [resolvePath_cons] at hres2
      cases hg2 : getFieldVal h5 v46 "inputs" with
      | none => rw [hg2] at hres2; exact absurd hres2 (by simp)
      | some w0 =>
        rw [hg2] at hres2
        have hres3 : resolvePath h5 w0 [] = some w := hres2
        rw [resolvePath_nil] at hres3
        rw [Option.some.inj hres3] at hg2
        obtain ⟨t46, vs46, htg46, hd46, -, -⟩ :=
          getFieldVal_correspond_some h5 F v tI vsI "46" v46 hdump hg1
        obtain ⟨tinp, vsinp, htginp, hdinp, -, -⟩ :=
          getFieldVal_correspond_some h5 F v46 t46 vs46 "inputs" w hd46 hg2
        obtain ⟨vns, vsns, hgns, hdns, -⟩ :=
          treeGet_correspond_some h5 F w tinp vsinp "seed" _ hdinp
            (hseed46 t46 tinp htg46 htginp)
        rw [dumpVal_leaf_tree_inv h5 F vns _ vsns hdns] at hgns
        exact hgns

/-- Keys-bounded heaps have no dict at or above the bound. -/
theorem Heap.lookupObj_none_of_keys_lt {h : Heap} {n : Nat}
    (hk : ∀ c ∈ h, c.1 < n) (a : Addr) (ha : n ≤ a) :
    h.lookupObj a = none := by
  unfold Heap.lookupObj
  rw [List.find?_eq_none.mpr (fun x hx => by
    simp only [decide_eq_true_eq]
    exact Nat.ne_of_lt (lt_of_lt_of_le (hk x hx) ha))]
  rfl

/-- A template heap with a primary sampler node "12" (stored seed 7) and
a refiner node "46" (stored seed 9); the root document lives at
address 0. -/
def c5Heap : Heap :=
  [(0, [("12", .ref 1), ("46", .ref 3)]),
   (1, [("inputs", .ref 2)]),
   (2, [("noise_seed", .leaf (.int 7))]),
   (3, [("inputs", .ref 4)]),
   (4, [("seed", .leaf (.int 9))])]

/-- The serialized form of `c5Heap`'s root document. -/
def c5Tree : JTree :=
  .obj [("12", .obj [("inputs", .obj [("noise_seed", .leaf (.int 7))])]),
        ("46", .obj [("inputs", .obj [("seed", .leaf (.int 9))])])]

/-- `c5Heap` after one instantiation: the deep copy lives at addresses
5–9 and both copied seed fields are forced to `-1`. -/
def c5HeapOut : Heap := c5Heap ++
  [(5, [("noise_seed", .leaf (.int (-1)))]),
   (6, [("inputs", .ref 5)]),
   (7, [("seed", .leaf (.int (-1)))]),
   (8, [("inputs", .ref 7)]),
   (9, [("12", .ref 6), ("46", .ref 8)])]

theorem claim5_seed_sentinel_witness :
    HeapFresh c5Heap 5
    ∧ dumpVal c5Heap 3 (.ref 0) = some (c5Tree, [0, 1, 2, 3, 4])
    ∧ instantiateJob c5Heap (.ref 0) 3 5 "img.png" "pos" "neg"
        = some (c5HeapOut, .ref 9, 10)
    ∧ resolvePath c5HeapOut (.ref 9) ["12", "inputs"] = some (.ref 5)
    ∧ getFieldVal c5HeapOut (.ref 5) "noise_seed" = some (.leaf (.int (-1)))
    ∧ resolvePath c5HeapOut (.ref 9) ["46", "inputs"] = some (.ref 7)
    ∧ getFieldVal c5HeapOut (.ref 7) "seed" = some (.leaf (.int (-1))) := by
  have hfresh : HeapFresh c5Heap 5 :=
    fun a ha => Heap.lookupObj_none_of_keys_lt (by decide) a ha
  have hd : dumpVal c5Heap 3 (.ref 0) = some (c5Tree, [0, 1, 2, 3, 4]) := by
    simp [dumpVal, dumpObj, c5Heap, c5Tree, Heap.lookupObj, List.find?]
  have hop : instantiateJob c5Heap (.ref 0) 3 5 "img.png" "pos" "neg"
      = some (c5HeapOut, .ref 9, 10) := by
    simp [instantiateJob, modifyWorkflowForImage, guardedSetText,
      guardedSetSeed, dumpVal, dumpObj, allocTree, allocFields, getFieldVal,
      findField, Heap.lookupObj, setPath2, setFieldAt, JObj.setKey,
      Heap.setObj, c5Heap, c5HeapOut, List.find?]
  have hres12 : resolvePath c5HeapOut (.ref 9) ["12", "inputs"]
      = some (.ref 5) := by
    simp [resolvePath, getFieldVal, findField, Heap.lookupObj, c5Heap,
      c5HeapOut, List.find?]
  have hres46 : resolvePath c5HeapOut (.ref 9) ["46", "inputs"]
      = some (.ref 7) := by
    simp [resolvePath, getFieldVal, findField, Heap.lookupObj, c5Heap,
      c5HeapOut, List.find?]
  exact ⟨hfresh, hd, hop, hres12,
    (claim5_seed_sentinel c5Heap (.ref 0) 3 5 "img.png" "pos" "neg" c5Tree
      [0, 1, 2, 3, 4] c5HeapOut (.ref 9) 10 hfresh hd hop).1 (.ref 5) hres12,
    hres46,
    (claim5_seed_sentinel c5Heap (.ref 0) 3 5 "img.png" "pos" "neg" c5Tree
      [0, 1, 2, 3, 4] c5HeapOut (.ref 9) 10 hfresh hd hop).2 (.ref 7) hres46⟩

/-! ## Claim C10 -/

/-- C10: a binary frame of exactly 8 bytes with type code 1 parses to
type code 1 with an empty payload, and the monitor saves no preview and
leaves the per-item state untouched — the empty (falsy) payload fails
the `msg_type == 1 and payload` guard, so no decode is even attempted. -/
theorem claim10_type1_empty_payload_ignored (b4 b5 b6 b7 : Nat)
    (pilOpen : List Nat → Option PILImage) (tempInputDir imageId : String)
    (timeMs : Nat) (st : MonitorState) :
    parseComfyuiBinaryMessage [0, 0, 0, 1, b4, b5, b6, b7] = some (1, [])
    ∧ monitorBinaryMessage pilOpen tempInputDir imageId timeMs
        [0, 0, 0, 1, b4, b5, b6, b7] st = st := by
  have hp : parseComfyuiBinaryMessage [0, 0, 0, 1, b4, b5, b6, b7] = some (1, []) := by
    simp [parseComfyuiBinaryMessage, beU32]
  refine ⟨hp, ?_⟩
  rw [monitorBinaryMessage, hp]
  simp

end AutoProcessUI
